import Mathlib

/-!
Verification of the nuclide repository's natural-language specification
against a shallow embedding of its source code.

JavaScript strings are embedded as `List Char` (`JsStr`), so that
`String.prototype.split` / `Array.prototype.join` become structurally
recursive Lean functions amenable to induction.  JavaScript arrays become
Lean lists, plain records become structures, `null`/`undefined` results
become `Option`, and thrown exceptions become `Except`.
-/

namespace Nuclide

/-- Embedding of a JavaScript string as a list of its characters. -/
abbrev JsStr := List Char

/-- Embedding of `path.split(separator)` for the single-character separators
used by the code: splits at every occurrence of `c`, keeping empty pieces,
so that splitting an absolute path such as `/a/b` yields `['', 'a', 'b']`. -/
def splitSep (c : Char) : JsStr → List JsStr
  | [] => [[]]
  | x :: xs =>
    match splitSep c xs with
    | [] => [[]]
    | h :: t => if x = c then [] :: h :: t else (x :: h) :: t

/-- Embedding of `parts.join(separator)` for a single-character separator:
interleaves `c` between the pieces, and yields the empty string on `[]`. -/
def joinSep (c : Char) : List JsStr → JsStr
  | [] => []
  | [t] => t
  | t :: ts => t ++ c :: joinSep c ts

/-- Modelled from the spec: `nuclideUri.pathSeparatorFor` is imported from
`nuclide-commons/nuclideUri`, whose source is not part of this snapshot.
The spec states that the paths handled here are absolute paths rooted under
a single working directory, i.e. POSIX paths, whose separator is `/`. -/
def pathSeparatorFor (_path : JsStr) : Char := '/'

/-- One element of the `displayPaths` working array of `computeDisplayPaths`
(`src/pkg/nuclide-ui/ChangedFilesList.js`): the path's separator, its
segments in reverse order, the current suffix depth, and the done flag. -/
structure DisplayPath where
  separator : Char
  pathParts : List JsStr
  depth : Nat
  done : Bool
deriving DecidableEq

/-- Fallback record used with `List.getD` when indexing record lists. -/
def dummyDisplayPath : DisplayPath := ⟨'/', [], 0, false⟩

/-- The string under which a record is counted in `seenCount`:
`pathParts.slice(0, depth).join('/')` (the join separator is the literal
`'/'` in the source, independent of the path's own separator). -/
def keyOf (r : DisplayPath) : JsStr := joinSep '/' (r.pathParts.take r.depth)

/-- The number of records of `l` whose key is `k`: the mathematical count
behind `seenCount`.  The object the program actually builds reports this
count faithfully only for keys that are not `Object.prototype` property
names — see `seenCountEqOne`. -/
def seenCountOf (l : List DisplayPath) (k : JsStr) : Nat :=
  l.countP (fun r => keyOf r == k)

/-- The own property names of `Object.prototype` (ECMAScript, Annex B
legacy accessors included).  `seenCount` is the plain object literal `{}`,
which inherits all of these, so reading any of them on it yields a
non-null inherited value even when the key was never counted. -/
def objectPrototypeKeys : List JsStr :=
  [ ['c', 'o', 'n', 's', 't', 'r', 'u', 'c', 't', 'o', 'r'],
    ['h', 'a', 's', 'O', 'w', 'n', 'P', 'r', 'o', 'p', 'e', 'r', 't', 'y'],
    ['i', 's', 'P', 'r', 'o', 't', 'o', 't', 'y', 'p', 'e', 'O', 'f'],
    ['p', 'r', 'o', 'p', 'e', 'r', 't', 'y', 'I', 's', 'E', 'n', 'u', 'm',
      'e', 'r', 'a', 'b', 'l', 'e'],
    ['t', 'o', 'L', 'o', 'c', 'a', 'l', 'e', 'S', 't', 'r', 'i', 'n', 'g'],
    ['t', 'o', 'S', 't', 'r', 'i', 'n', 'g'],
    ['v', 'a', 'l', 'u', 'e', 'O', 'f'],
    ['_', '_', 'd', 'e', 'f', 'i', 'n', 'e', 'G', 'e', 't', 't', 'e', 'r',
      '_', '_'],
    ['_', '_', 'd', 'e', 'f', 'i', 'n', 'e', 'S', 'e', 't', 't', 'e', 'r',
      '_', '_'],
    ['_', '_', 'l', 'o', 'o', 'k', 'u', 'p', 'G', 'e', 't', 't', 'e', 'r',
      '_', '_'],
    ['_', '_', 'l', 'o', 'o', 'k', 'u', 'p', 'S', 'e', 't', 't', 'e', 'r',
      '_', '_'],
    ['_', '_', 'p', 'r', 'o', 't', 'o', '_', '_'] ]

/-- The key `__proto__`, whose inherited accessor swallows numeric writes
instead of creating an own property. -/
def protoKey : JsStr := ['_', '_', 'p', 'r', 'o', 't', 'o', '_', '_']

/-- A JavaScript number stored in `seenCount`: a genuine count or `NaN`
(produced by incrementing an inherited function). -/
inductive JsNum
  | nan
  | num (n : Nat)
deriving DecidableEq

/-- A value read off the `seenCount` object: an own numeric property, or a
function/accessor inherited from `Object.prototype`. -/
inductive JsPropValue
  | jsNum (v : JsNum)
  | protoFunction
deriving DecidableEq

/-- Property read `seenCount[path]` on the plain object with own
properties `own`: an own property shadows the prototype; a missing own
property yields the inherited `Object.prototype` member for
prototype-named keys and `undefined` (`none`) otherwise. -/
def readProp (own : JsStr → Option JsNum) (k : JsStr) : Option JsPropValue :=
  match own k with
  | some v => some (JsPropValue.jsNum v)
  | none =>
    if objectPrototypeKeys.contains k then some JsPropValue.protoFunction
    else none

/-- Property write `seenCount[path] = v`: assigning `__proto__` invokes
the inherited accessor, and setting the prototype to a number is a silent
no-op, so no own property appears; any other key becomes an own property. -/
def writeProp (own : JsStr → Option JsNum) (k : JsStr) (v : JsNum) :
    JsStr → Option JsNum :=
  if k = protoKey then own
  else fun k2 => if k2 = k then some v else own k2

/-- The `ToNumber` coercion performed by `seenCount[path]++`: an inherited
function coerces to `NaN`. -/
def toNumber : JsPropValue → JsNum
  | JsPropValue.jsNum v => v
  | JsPropValue.protoFunction => JsNum.nan

/-- `+ 1` on a JavaScript number: `NaN + 1` is `NaN`. -/
def jsNumAdd1 : JsNum → JsNum
  | JsNum.nan => JsNum.nan
  | JsNum.num n => JsNum.num (n + 1)

/-- One iteration of the counting `forEach` (`ChangedFilesList.js` lines
56-63): `if (seenCount[path] == null) seenCount[path] = 1; else
seenCount[path]++`.  The `== null` test sees the inherited member of a
prototype-named key, so such a key takes the increment branch even on its
first visit and ends up holding `NaN`. -/
def seenCountStep (own : JsStr → Option JsNum) (path : JsStr) :
    JsStr → Option JsNum :=
  match readProp own path with
  | none => writeProp own path (JsNum.num 1)
  | some v => writeProp own path (jsNumAdd1 (toNumber v))

/-- The `seenCount` object after the counting `forEach` over `toProcess`,
starting from the plain object literal `{}` (no own properties). -/
def buildSeenCount (toProcess : List DisplayPath) : JsStr → Option JsNum :=
  toProcess.foldl (fun own r => seenCountStep own (keyOf r)) (fun _ => none)

/-- The `seenCount[path] === 1` test of the marking `forEach` (line 71):
strict equality with the number 1, true exactly on an own numeric
property holding 1 (`NaN` and inherited functions compare false). -/
def seenCountEqOne (own : JsStr → Option JsNum) (k : JsStr) : Bool :=
  readProp own k == some (JsPropValue.jsNum (JsNum.num 1))

/-- The per-key state transition of `seenCountStep`, used to evaluate the
fold: visiting key `k` leaves `__proto__` unowned, corrupts a first-visited
prototype-named key to `NaN`, starts an ordinary key at 1, and otherwise
applies the JavaScript increment. -/
def seenCountTransition (k : JsStr) (s : Option JsNum) : Option JsNum :=
  if k = protoKey then s
  else
    match s with
    | none =>
      if objectPrototypeKeys.contains k then some JsNum.nan
      else some (JsNum.num 1)
    | some v => some (jsNumAdd1 v)

/-- One iteration of the `while` loop of `computeDisplayPaths`: build the
`seenCount` object over the not-yet-done records, then mark each such
record done when `seenCount[path] === 1` or its whole path is used, and
otherwise extend it by one segment.  The source mutates a shrinking
`toProcess` array that always equals the not-done records of
`displayPaths`; here that array is recomputed from the full record list,
which is equivalent because `done` is never reset. -/
def roundStep (recs : List DisplayPath) : List DisplayPath :=
  let toProcess := recs.filter (fun r => !r.done)
  let seenCount := buildSeenCount toProcess
  recs.map (fun r =>
    if r.done then r
    else if seenCountEqOne seenCount (keyOf r) || r.depth == r.pathParts.length then
      { r with done := true }
    else
      { r with depth := r.depth + 1 })

/-- The `while (currentDepth < maxDepth && toProcess.length > 0)` loop of
`computeDisplayPaths`, indexed by the number of rounds that may still run
(`remaining = maxDepth - currentDepth`, so the loop entered with
`currentDepth = 1` runs at most `maxDepth - 1` rounds). -/
def loopGo : Nat → List DisplayPath → List DisplayPath
  | 0, recs => recs
  | remaining + 1, recs =>
    if recs.any (fun r => !r.done) then loopGo remaining (roundStep recs) else recs

/-- The initial `displayPaths` array of `computeDisplayPaths`: each path is
split on its separator, reversed, and given depth 1. -/
def initialDisplayPaths (filePaths : List JsStr) : List DisplayPath :=
  filePaths.map (fun path =>
    let separator := pathSeparatorFor path
    { separator := separator
      pathParts := (splitSep separator path).reverse
      depth := 1
      done := false })

/-- Embedding of `computeDisplayPaths` from
`src/pkg/nuclide-ui/ChangedFilesList.js` (lines 37-89): compute the
minimally differentiable display path for each file, extending ambiguous
suffixes one segment per round up to `maxDepth` (default 5) rounds of the
while loop, then rejoin the first `depth` reversed segments of each record
with the record's own separator. -/
def computeDisplayPaths (filePaths : List JsStr) (maxDepth : Nat := 5) : List JsStr :=
  let displayPaths := initialDisplayPaths filePaths
  (loopGo (maxDepth - 1) displayPaths).map
    (fun r => joinSep r.separator ((r.pathParts.take r.depth).reverse))

/-! ### Index-level description of `computeDisplayPaths`

The following definitions describe the algorithm's input positionally: for
the `i`-th input path, its reversed segment list, the number of paths whose
reversed-segment prefix of length `d` (i.e. segment suffix of length `d`)
coincides with path `i`'s, and the depth `dstar` at which the algorithm
stops extending the suffix of path `i`. -/

/-- Reversed segment list of the `i`-th input path. -/
def revParts (ps : List JsStr) (i : Nat) : List JsStr :=
  (splitSep '/' (ps.getD i [])).reverse

/-- Number of segments of the `i`-th input path. -/
def lenAt (ps : List JsStr) (i : Nat) : Nat := (revParts ps i).length

/-- Whether paths `j` and `i` share their last `d` segments (compared as
truncated reversed segment lists, exactly as the algorithm's keys do). -/
def takeEqB (ps : List JsStr) (d i j : Nat) : Bool :=
  (revParts ps j).take d == (revParts ps i).take d

/-- Number of input paths (path `i` included) sharing the last `d` segments
of path `i`. -/
def fullCount (ps : List JsStr) (i d : Nat) : Nat :=
  (List.range ps.length).countP (fun j => takeEqB ps d i j)

/-- Whether the length-`d` segment suffix of path `i` is unique in the list. -/
def uniqB (ps : List JsStr) (i d : Nat) : Bool := fullCount ps i d == 1

/-- Whether the depth-`d` key of path `i` avoids the `Object.prototype`
property names, so that the `seenCount` object reports its count
faithfully. -/
def protoFreeB (ps : List JsStr) (i d : Nat) : Bool :=
  !(objectPrototypeKeys.contains (joinSep '/' ((revParts ps i).take d)))

/-- The stopping condition of the algorithm for path `i` at depth `d`:
its suffix of length `d` is detected as unique — counted once *and* not
named like an `Object.prototype` member — or the whole path is used. -/
def goodB (ps : List JsStr) (i d : Nat) : Bool :=
  (protoFreeB ps i d && uniqB ps i d) || d == lenAt ps i

/-- First `e ≥ d` with `p e = true`, searching at most `fuel` candidates
and returning `d + fuel` when none of `d, …, d + fuel - 1` satisfies `p`. -/
def firstFrom (p : Nat → Bool) : Nat → Nat → Nat
  | d, 0 => d
  | d, fuel + 1 => if p d then d else firstFrom p (d + 1) fuel

/-- The depth at which the algorithm finalizes path `i`, ignoring the
`maxDepth` cap: the least `d ∈ [1, lenAt ps i]` whose length-`d` suffix is
unique or uses the whole path. -/
def dstar (ps : List JsStr) (i : Nat) : Nat :=
  firstFrom (goodB ps i) 1 (lenAt ps i - 1)

/-- Closed form for the record list reached after `r` rounds: path `i` is
done at depth `dstar ps i` once `r` rounds have passed that depth, and is
otherwise still live at depth `r + 1`. -/
def stateAt (ps : List JsStr) (r : Nat) : List DisplayPath :=
  (List.range ps.length).map (fun i =>
    if dstar ps i ≤ r then ⟨'/', revParts ps i, dstar ps i, true⟩
    else ⟨'/', revParts ps i, r + 1, false⟩)

/-- `k`-fold iteration of `roundStep`. -/
def roundIter : Nat → List DisplayPath → List DisplayPath
  | 0, recs => recs
  | k + 1, recs => roundIter k (roundStep recs)

/-! ### Spec-side description of the minimal unique suffix (for claim C1)

These definitions follow the specification's words — "the shortest path
suffix for each that is still unique among the set (up to a maximum number
of path segments)" — rather than the algorithm, and are compared with the
algorithm's output. -/

/-- Whether the length-`d` segment suffix of path `i` occurs as an
equal-length segment suffix of no other path of the list. -/
def suffixUniqueB (ps : List JsStr) (i d : Nat) : Bool :=
  (List.range ps.length).all
    (fun j => j == i || !((revParts ps j).take d == (revParts ps i).take d))

/-- The spec's display depth for path `i` under the default cap of 5: the
least `d` between 1 and `min 5 (lenAt ps i)` whose length-`d` suffix is
unique among the other paths, or that bound when no capped depth is unique. -/
def specUniqueDepth (ps : List JsStr) (i : Nat) : Nat :=
  firstFrom (suffixUniqueB ps i) 1 (min 5 (lenAt ps i) - 1)

/-- The display path the spec sentence promises for path `i`: its shortest
unique segment suffix, never extended beyond 5 segments or the whole path. -/
def specDisplayPath (ps : List JsStr) (i : Nat) : JsStr :=
  joinSep '/' (((revParts ps i).take (specUniqueDepth ps i)).reverse)

/-- An absolute POSIX path: one starting with the separator. -/
def isAbsolute (p : JsStr) : Bool := p.head? == some '/'

/-- The amended uniqueness notion for claim C1: the length-`d` suffix of
path `i` is unique among the other paths *and* its joined key is not an
`Object.prototype` property name — the program's plain-object `seenCount`
never reads back a count of 1 for such keys, so they are never detected
as unique. -/
def specSafeUniqueB (ps : List JsStr) (i d : Nat) : Bool :=
  protoFreeB ps i d && suffixUniqueB ps i d

/-- The amended spec display depth for path `i` under the default cap of
5: the least `d` between 1 and `min 5 (lenAt ps i)` at which the suffix is
detected as unique, or that bound when no capped depth qualifies. -/
def specUniqueDepthAmended (ps : List JsStr) (i : Nat) : Nat :=
  firstFrom (specSafeUniqueB ps i) 1 (min 5 (lenAt ps i) - 1)

/-- The display path the amended claim C1 promises for path `i`. -/
def specDisplayPathAmended (ps : List JsStr) (i : Nat) : JsStr :=
  joinSep '/' (((revParts ps i).take (specUniqueDepthAmended ps i)).reverse)

/-! ### `ChangedFilesList` rendering (claims C5 and C10) -/

/-- `FILE_CHANGES_INITIAL_PAGE_SIZE` from `ChangedFilesList.js` line 91. -/
def FILE_CHANGES_INITIAL_PAGE_SIZE : Nat := 100

/-- Modelled from the spec: `nuclideUri.basename` (from
`nuclide-commons/nuclideUri`, not in this snapshot) yields the last
segment of a path. -/
def basename (p : JsStr) : JsStr :=
  (splitSep (pathSeparatorFor p) p).getLastD []

/-- Modelled from the spec: `String.prototype.localeCompare` is a
host-locale comparison; it is modelled as code-point order. -/
def lexLe : JsStr → JsStr → Bool
  | [], _ => true
  | _ :: _, [] => false
  | a :: as, b :: bs => if a = b then lexLe as bs else decide (a < b)

/-- Insertion step of the stable sort below. -/
def insertSorted {α : Type} (le : α → α → Bool) (a : α) : List α → List α
  | [] => [a]
  | b :: bs => if le a b then a :: b :: bs else b :: insertSorted le a bs

/-- Embedding of `Array.prototype.sort` with a comparator (stable since
ES2019) as a stable insertion sort. -/
def sortByLe {α : Type} (le : α → α → Bool) : List α → List α
  | [] => []
  | a :: as => insertSorted le a (sortByLe le as)

/-- The props of `ChangedFilesList` that its `render` method reads for the
decisions modelled here; `fileStatuses` is a JavaScript `Map`, i.e. an
insertion-ordered association list with distinct keys, over an abstract
status type `σ` (`FileChangeStatusValue` lives outside this snapshot). -/
structure ChangedFilesListProps (σ : Type) where
  fileStatuses : List (JsStr × σ)
  hideEmptyFolders : Bool
  rootPath : JsStr
  shouldShowFolderName : Bool

/-- The component state of `ChangedFilesList`. -/
structure ChangedFilesListState where
  isCollapsed : Bool
  visiblePagesCount : Nat
deriving DecidableEq

/-- The state installed by the `ChangedFilesList` constructor. -/
def initialChangedFilesListState : ChangedFilesListState :=
  { isCollapsed := false, visiblePagesCount := 1 }

/-- One entry of `sizeLimitedFileChanges` in `render`: the file path, its
display path, and the status looked up in the `fileStatuses` map
(`nullthrows(fileStatuses.get(filePath))`; the `Option` models the lookup,
whose failure would make `nullthrows` throw). -/
structure FileChangeEntry (σ : Type) where
  filePath : JsStr
  displayPath : JsStr
  fileStatus : Option σ

/-- The observable outcome of `ChangedFilesList.render` when it does not
return `null`: whether the root item carries the `collapsed` class, whether
the folder-name header row is present, the `ChangedFile` children in render
order, and whether the `show more files` ellipsis element is rendered. -/
structure RenderedChangedFilesList (σ : Type) where
  rootClassCollapsed : Bool
  showFolderName : Bool
  fileChanges : List (FileChangeEntry σ)
  showMoreFiles : Bool

/-- Embedding of `ChangedFilesList.render` (`ChangedFilesList.js` lines
133-255): `null` when the map is empty and `hideEmptyFolders` is set;
otherwise the first `FILE_CHANGES_INITIAL_PAGE_SIZE * visiblePagesCount`
entries of the map, given display paths by `computeDisplayPaths` and
sorted by basename, with the `show more files` element exactly when the
map holds more entries than are shown. -/
def ChangedFilesList_render {σ : Type} (props : ChangedFilesListProps σ)
    (state : ChangedFilesListState) : Option (RenderedChangedFilesList σ) :=
  if props.fileStatuses.length = 0 ∧ props.hideEmptyFolders then none
  else
    let filesToShow := FILE_CHANGES_INITIAL_PAGE_SIZE * state.visiblePagesCount
    let filePaths := (props.fileStatuses.map Prod.fst).take filesToShow
    let displayPaths := computeDisplayPaths filePaths
    let sizeLimitedFileChanges :=
      sortByLe (fun change1 change2 => lexLe (basename change1.filePath)
          (basename change2.filePath))
        (List.zipWith (fun filePath displayPath =>
            { filePath := filePath
              displayPath := displayPath
              fileStatus := List.lookup filePath props.fileStatuses
              : FileChangeEntry σ })
          filePaths displayPaths)
    some { rootClassCollapsed := state.isCollapsed
           showFolderName := props.shouldShowFolderName
           fileChanges := sizeLimitedFileChanges
           showMoreFiles := decide (props.fileStatuses.length > filesToShow) }

/-- The `onClick` handler of the `show more files` element:
`this.setState({visiblePagesCount: this.state.visiblePagesCount + 1})`. -/
def showMoreOnClick (state : ChangedFilesListState) : ChangedFilesListState :=
  { state with visiblePagesCount := state.visiblePagesCount + 1 }

/-! ### Mercurial merge-conflict classification (claim C3) -/

/-- One side (`base`/`local`/`other`/`output`) of a parsed conflict record
from the hg JSON output, as in the `mockOutput` test fixture. -/
structure ConflictFileData where
  contents : JsStr
  fileExists : Bool
  isexec : Bool
  issymlink : Bool
deriving DecidableEq

/-- A parsed conflict record.  The JSON fields `local` and `other` are
named `localSide` and `otherSide` here because of Lean keywords; the
`exists` flag of each side is `fileExists`. -/
structure MergeConflictRecord where
  base : ConflictFileData
  localSide : ConflictFileData
  otherSide : ConflictFileData
  output : ConflictFileData
  path : JsStr
deriving DecidableEq

/-- The conflict-status categories from `hg-constants`'
`MergeConflictStatus` that the classification uses. -/
inductive MergeConflictStatus where
  | BOTH_CHANGED
  | DELETED_IN_THEIRS
  | DELETED_IN_OURS
deriving DecidableEq

/-- Modelled from the spec: the implementation of
`HgService.fetchMergeConflicts` is not part of this snapshot (only its test
in the HgService spec is).  Per the spec, each parsed conflict record is
classified "into one of a small set of conflict-status categories (e.g.,
both sides changed, deleted on one side) by comparing existence flags
pairwise": a conflict whose local and other sides both exist is
`BOTH_CHANGED`, one whose local side alone exists was deleted in theirs,
and one whose local side does not exist is `DELETED_IN_OURS` — matching
the expectations of the test at lines 916-937. -/
def mergeConflictStatusOf (conflict : MergeConflictRecord) : MergeConflictStatus :=
  if conflict.localSide.fileExists && conflict.otherSide.fileExists then
    MergeConflictStatus.BOTH_CHANGED
  else if conflict.localSide.fileExists then
    MergeConflictStatus.DELETED_IN_THEIRS
  else
    MergeConflictStatus.DELETED_IN_OURS

/-- Modelled from the spec: the classification pass of
`fetchMergeConflicts` over the parsed conflict records. -/
def fetchMergeConflictsStatuses (records : List MergeConflictRecord) :
    List MergeConflictStatus :=
  records.map mergeConflictStatusOf

/-- The merge-marker text shared by both `output` sides of the `mockOutput`
fixture (test lines 584 and 612). -/
def mockConflictOutputContents : JsStr :=
  List.replicate 7 '<' ++
  [' ', 'd', 'e', 's', 't', ':', ' ', ' ', ' '] ++
  ['a', 'e', 'e', 'f', '9', '8', '9', 'd', '2', '4', 'c', '2'] ++
  [' ', '-', ' ', 'a', 's', 'r', 'i', 'r', 'a', 'm'] ++
  [':', ' ', 't', '1', '\n', 't', '1', '\n'] ++
  List.replicate 7 '=' ++
  ['\n', 't', '2', '\n'] ++
  List.replicate 7 '>' ++
  [' ', 's', 'o', 'u', 'r', 'c', 'e', ':', ' '] ++
  ['6', '4', 'c', '2', '5', '3', 'f', '3', 'c', '1', 'd', '7'] ++
  [' ', '-', ' ', 'a', 's', 'r', 'i', 'r', 'a', 'm'] ++
  [':', ' ', 't', '2', '\n']

/-- First conflict record of the `mockOutput` fixture (test lines 564-591):
all three of base, local and other exist. -/
def mockConflict1 : MergeConflictRecord :=
  { base := { contents := [], fileExists := true, isexec := false, issymlink := false }
    localSide := { contents := ['t', '1'], fileExists := true, isexec := false,
                   issymlink := false }
    otherSide := { contents := ['t', '2'], fileExists := true, isexec := false,
                   issymlink := false }
    output := { contents := mockConflictOutputContents, fileExists := true,
                isexec := false, issymlink := false }
    path := ['t', 'e', 'm', 'p', '1'] }

/-- Second conflict record of the `mockOutput` fixture (test lines
592-619): neither base nor local exists, other does. -/
def mockConflict2 : MergeConflictRecord :=
  { base := { contents := [], fileExists := false, isexec := false, issymlink := false }
    localSide := { contents := ['t', '1'], fileExists := false, isexec := false,
                   issymlink := false }
    otherSide := { contents := ['t', '2'], fileExists := true, isexec := false,
                   issymlink := false }
    output := { contents := mockConflictOutputContents, fileExists := true,
                isexec := false, issymlink := false }
    path := ['t', 'e', 'm', 'p', '2'] }

/-- The parsed conflict list of the `mockOutput` fixture. -/
def mockOutputConflicts : List MergeConflictRecord := [mockConflict1, mockConflict2]

/-! ### Remote-project reconnection (claim C4) -/

/-- The saved remote-project configuration destructured by
`createRemoteConnection` (`src/unnamed/part_000` lines 46-51).  A missing
`promptReconnectOnFailure` property is `none`; the destructuring default
makes it `true`. -/
structure SerializableRemoteConnectionConfiguration where
  host : JsStr
  path : JsStr
  displayTitle : JsStr
  promptReconnectOnFailure : Option Bool

/-- The options object passed to `openConnectionDialog`. -/
structure OpenConnectionDialogOptions where
  initialServer : JsStr
  initialCwd : JsStr
deriving DecidableEq

/-- Embedding of `RemoteProjectsService.createRemoteConnection`
(`src/unnamed/part_000` lines 43-69).  `RemoteConnection.reconnect` and
`openConnectionDialog` are external asynchronous effects, passed as oracle
functions; the returned list records every invocation of the connection
dialog, so that "returns null without opening any dialog" is expressible. -/
def createRemoteConnection {Conn : Type}
    (reconnect : JsStr → JsStr → JsStr → Bool → Option Conn)
    (dialog : OpenConnectionDialogOptions → Option Conn)
    (remoteProjectConfig : SerializableRemoteConnectionConfiguration) :
    Option Conn × List OpenConnectionDialogOptions :=
  let promptReconnectOnFailure :=
    remoteProjectConfig.promptReconnectOnFailure.getD true
  match reconnect remoteProjectConfig.host remoteProjectConfig.path
      remoteProjectConfig.displayTitle promptReconnectOnFailure with
  | some connection => (some connection, [])
  | none =>
    if promptReconnectOnFailure = false then (none, [])
    else
      let options : OpenConnectionDialogOptions :=
        { initialServer := remoteProjectConfig.host
          initialCwd := remoteProjectConfig.path }
      (dialog options, [options])

/-! ### `hg config` wrapper (claim C6) -/

/-- Both ends trimmed of whitespace: `String.prototype.trim`. -/
def trimStr (s : JsStr) : JsStr :=
  ((s.dropWhile Char.isWhitespace).reverse.dropWhile Char.isWhitespace).reverse

/-- The argument vector `['config', key]` the test expects
(HgService spec lines 741-754). -/
def hgConfigArgs (key : JsStr) : List JsStr :=
  [['c', 'o', 'n', 'f', 'i', 'g'], key]

/-- Modelled from the spec: `HgService.getConfigValueAsync` is not part of
this snapshot (only its test is).  Per the spec ("null-returns on missing
configuration") and the test ("returns `null` on errors"), it invokes
`hg config <key>` and yields the trimmed stdout, or `null` when the
invocation throws; the hg runner is passed as an `Except`-valued oracle. -/
def getConfigValueAsync (runHg : List JsStr → Except JsStr JsStr)
    (key : JsStr) : Option JsStr :=
  match runHg (hgConfigArgs key) with
  | Except.ok stdout => some (trimStr stdout)
  | Except.error _ => none

/-! ### Flow server status → busy messages (claim C7) -/

/-- `ServerStatusType` from the flow-rpc declarations: the per-root server
states mentioned by the spec ("initializing/busy/failed/etc."). -/
inductive ServerStatusType where
  | unknown
  | notRunning
  | notInstalled
  | busy
  | init
  | failed
  | ready
deriving DecidableEq

/-- One element of the server-status stream. -/
structure ServerStatusUpdate where
  pathToRoot : JsStr
  status : ServerStatusType
deriving DecidableEq

/-- Modelled from the spec: `nuclideUri.nuclideUriToDisplayString` (from
`nuclide-commons/nuclideUri`, not in this snapshot) renders a URI for
display; modelled as the identity on local paths. -/
def nuclideUriToDisplayString (uri : JsStr) : JsStr := uri

/-- The message observable body inside `serverStatusUpdatesToBusyMessages`
(`nuclide-flow` `main.js` lines 313-333): `init` and `busy` updates report
`Flow server is <readableStatus> (<readablePath>)`, any other status maps
to `Observable.empty()` (no message). -/
def busyMessageOf (nextStatus : ServerStatusUpdate) : Option JsStr :=
  if nextStatus.status = ServerStatusType.init ∨
      nextStatus.status = ServerStatusType.busy then
    let readablePath := nuclideUriToDisplayString nextStatus.pathToRoot
    let readableStatus : JsStr :=
      if nextStatus.status = ServerStatusType.init then
        ['i', 'n', 'i', 't', 'i', 'a', 'l', 'i', 'z', 'i', 'n', 'g']
      else
        ['b', 'u', 's', 'y']
    some (['F', 'l', 'o', 'w', ' ', 's', 'e', 'r', 'v', 'e', 'r', ' ', 'i', 's', ' '] ++
      readableStatus ++ [' ', '('] ++ readablePath ++ [')'])
  else none

/-- The busy message active for `pathToRoot` after the stream has delivered
`statusUpdates`, under the embedding of the Rx pipeline of
`serverStatusUpdatesToBusyMessages` (`main.js` lines 302-338): `groupBy`
routes every update to its root's group, and `completingSwitchMap`
unsubscribes the previous inner observable (disposing its `reportBusy`
message) and subscribes the update's own, so per root the most recent
update alone determines the active message. -/
def serverStatusUpdatesToBusyMessages (statusUpdates : List ServerStatusUpdate)
    (pathToRoot : JsStr) : Option JsStr :=
  statusUpdates.foldl
    (fun currentMessage nextStatus =>
      if nextStatus.pathToRoot == pathToRoot then busyMessageOf nextStatus
      else currentMessage)
    none

/-! ### Lemmas about `splitSep` and `joinSep` -/

theorem joinSep_nil (c : Char) : joinSep c [] = [] := rfl

theorem joinSep_single (c : Char) (t : JsStr) : joinSep c [t] = t := rfl

theorem joinSep_cons₂ (c : Char) (a b : JsStr) (l : List JsStr) :
    joinSep c (a :: b :: l) = a ++ c :: joinSep c (b :: l) := rfl

theorem joinSep_cons_cons (c : Char) (x : Char) (hd : JsStr) (tl : List JsStr) :
    joinSep c ((x :: hd) :: tl) = x :: joinSep c (hd :: tl) := by
  cases tl <;> simp [joinSep]

theorem splitSep_ne_nil (c : Char) (s : JsStr) : splitSep c s ≠ [] := by
  induction s with
  | nil => simp [splitSep]
  | cons x xs ih =>
    simp only [splitSep]
    cases h : splitSep c xs with
    | nil => simp
    | cons hd tl => by_cases hx : x = c <;> simp [hx]

theorem not_mem_of_mem_splitSep {c : Char} {s t : JsStr} (ht : t ∈ splitSep c s) :
    c ∉ t := by
  induction s generalizing t with
  | nil =>
    simp only [splitSep, List.mem_singleton] at ht
    subst ht; simp
  | cons x xs ih =>
    simp only [splitSep] at ht
    cases h : splitSep c xs with
    | nil => exact absurd h (splitSep_ne_nil c xs)
    | cons hd tl =>
      rw [h] at ht
      by_cases hx : x = c
      · simp only [hx, if_pos rfl] at ht
        rcases List.mem_cons.mp ht with rfl | ht
        · simp
        · exact ih (h ▸ ht)
      · simp only [if_neg hx] at ht
        rcases List.mem_cons.mp ht with rfl | ht
        · intro hc
          rcases List.mem_cons.mp hc with rfl | hc
          · exact hx rfl
          · exact ih (h ▸ List.mem_cons_self hd tl) hc
        · exact ih (h ▸ List.mem_cons.mpr (Or.inr ht))

theorem joinSep_splitSep (c : Char) (s : JsStr) : joinSep c (splitSep c s) = s := by
  induction s with
  | nil => rfl
  | cons x xs ih =>
    simp only [splitSep]
    cases h : splitSep c xs with
    | nil => exact absurd h (splitSep_ne_nil c xs)
    | cons hd tl =>
      rw [h] at ih
      by_cases hx : x = c
      · subst hx
        simp [joinSep_cons₂, ih]
      · simp [if_neg hx, joinSep_cons_cons, ih]

theorem splitSep_sepFree {c : Char} {t : JsStr} (h : c ∉ t) : splitSep c t = [t] := by
  induction t with
  | nil => rfl
  | cons x xs ih =>
    have hx : x ≠ c := fun he => h (he ▸ List.mem_cons_self x xs)
    have hxs : c ∉ xs := fun hc => h (List.mem_cons.mpr (Or.inr hc))
    simp [splitSep, ih hxs, if_neg hx]

theorem splitSep_append_sep {c : Char} {t : JsStr} (h : c ∉ t) (r : JsStr) :
    splitSep c (t ++ c :: r) = t :: splitSep c r := by
  induction t with
  | nil =>
    simp only [List.nil_append, splitSep]
    cases hr : splitSep c r with
    | nil => exact absurd hr (splitSep_ne_nil c r)
    | cons hd tl => simp
  | cons y ys ih =>
    have hy : y ≠ c := fun he => h (he ▸ List.mem_cons_self y ys)
    have hys : c ∉ ys := fun hc => h (List.mem_cons.mpr (Or.inr hc))
    simp only [List.cons_append, splitSep, List.append_eq]
    rw [ih hys]
    simp [if_neg hy]

theorem splitSep_joinSep {c : Char} {parts : List JsStr} (hne : parts ≠ [])
    (hfree : ∀ t ∈ parts, c ∉ t) : splitSep c (joinSep c parts) = parts := by
  induction parts with
  | nil => exact absurd rfl hne
  | cons t ts ih =>
    cases ts with
    | nil => exact joinSep_single c t ▸ splitSep_sepFree (hfree t (List.mem_cons_self t []))
    | cons u us =>
      rw [joinSep_cons₂, splitSep_append_sep (hfree t (List.mem_cons_self t _))]
      rw [ih (by simp) (fun a ha => hfree a (List.mem_cons.mpr (Or.inr ha)))]

theorem append_sep_inj {c : Char} {a b u v : JsStr} (ha : c ∉ a) (hb : c ∉ b)
    (h : a ++ c :: u = b ++ c :: v) : a = b ∧ u = v := by
  induction a generalizing b with
  | nil =>
    cases b with
    | nil => simpa using h
    | cons y ys =>
      simp only [List.nil_append, List.cons_append, List.cons.injEq] at h
      exact absurd (h.1 ▸ List.mem_cons_self y ys) hb
  | cons x xs ih =>
    cases b with
    | nil =>
      simp only [List.cons_append, List.nil_append, List.cons.injEq] at h
      exact absurd (h.1 ▸ List.mem_cons_self x xs) ha
    | cons y ys =>
      simp only [List.cons_append, List.cons.injEq] at h
      have hxs : c ∉ xs := fun hc => ha (List.mem_cons.mpr (Or.inr hc))
      have hys : c ∉ ys := fun hc => hb (List.mem_cons.mpr (Or.inr hc))
      obtain ⟨h1, h2⟩ := ih hxs hys h.2
      exact ⟨by rw [h.1, h1], h2⟩

theorem joinSep_inj {c : Char} {A B : List JsStr} (hA : A ≠ []) (hB : B ≠ [])
    (hfA : ∀ t ∈ A, c ∉ t) (hfB : ∀ t ∈ B, c ∉ t)
    (h : joinSep c A = joinSep c B) : A = B := by
  induction A generalizing B with
  | nil => exact absurd rfl hA
  | cons a as ih =>
    cases B with
    | nil => exact absurd rfl hB
    | cons b bs =>
      cases as with
      | nil =>
        cases bs with
        | nil => rw [joinSep_single, joinSep_single] at h; rw [h]
        | cons b' bs' =>
          rw [joinSep_single, joinSep_cons₂] at h
          have : c ∈ a := h ▸ List.mem_append.mpr (Or.inr (List.mem_cons_self c _))
          exact absurd this (hfA a (List.mem_cons_self a []))
      | cons a' as' =>
        cases bs with
        | nil =>
          rw [joinSep_cons₂, joinSep_single] at h
          have : c ∈ b := h ▸ List.mem_append.mpr (Or.inr (List.mem_cons_self c _))
          exact absurd this (hfB b (List.mem_cons_self b []))
        | cons b' bs' =>
          rw [joinSep_cons₂, joinSep_cons₂] at h
          obtain ⟨h1, h2⟩ := append_sep_inj (hfA a (List.mem_cons_self a _))
            (hfB b (List.mem_cons_self b _)) h
          have htail : a' :: as' = b' :: bs' :=
            ih (by simp) (by simp)
              (fun t ht => hfA t (List.mem_cons.mpr (Or.inr ht)))
              (fun t ht => hfB t (List.mem_cons.mpr (Or.inr ht))) h2
          rw [h1, htail]

theorem take_ne_nil_of_ne_nil {α : Type} {l : List α} {d : Nat} (hl : l ≠ [])
    (hd : d ≠ 0) : l.take d ≠ [] := by
  cases l with
  | nil => exact absurd rfl hl
  | cons x xs => cases d with
    | zero => exact absurd rfl hd
    | succ n => simp

/-! ### Lemmas about `firstFrom` and `dstar` -/

theorem le_firstFrom (p : Nat → Bool) (d fuel : Nat) : d ≤ firstFrom p d fuel := by
  induction fuel generalizing d with
  | zero => simp [firstFrom]
  | succ n ih =>
    simp only [firstFrom]
    by_cases h : p d
    · simp [h]
    · simp only [h, if_false]
      exact Nat.le_trans (Nat.le_succ d) (ih (d + 1))

theorem firstFrom_le (p : Nat → Bool) (d fuel : Nat) :
    firstFrom p d fuel ≤ d + fuel := by
  induction fuel generalizing d with
  | zero => simp [firstFrom]
  | succ n ih =>
    simp only [firstFrom]
    by_cases h : p d
    · simp [h]
    · simp only [h, if_false]
      exact Nat.le_trans (ih (d + 1)) (by omega)

theorem firstFrom_false_of_lt (p : Nat → Bool) (d fuel : Nat) :
    ∀ e, d ≤ e → e < firstFrom p d fuel → p e = false := by
  induction fuel generalizing d with
  | zero =>
    intro e he hlt
    simp only [firstFrom] at hlt
    omega
  | succ n ih =>
    intro e he hlt
    simp only [firstFrom] at hlt
    by_cases h : p d
    · simp only [h, if_true] at hlt; omega
    · simp only [h, if_false] at hlt
      rcases Nat.eq_or_lt_of_le he with rfl | he'
      · exact Bool.eq_false_iff.mpr (fun hc => h (by simpa using hc))
      · exact ih (d + 1) e he' hlt

theorem firstFrom_true_or_exhaust (p : Nat → Bool) (d fuel : Nat) :
    p (firstFrom p d fuel) = true ∨ firstFrom p d fuel = d + fuel := by
  induction fuel generalizing d with
  | zero => right; simp [firstFrom]
  | succ n ih =>
    simp only [firstFrom]
    by_cases h : p d
    · left; rw [if_pos h]; exact h
    · rw [if_neg h]
      rcases ih (d + 1) with h' | h'
      · exact Or.inl h'
      · right; omega

theorem firstFrom_eq_of (p : Nat → Bool) (d fuel x : Nat) (hdx : d ≤ x)
    (hxf : x ≤ d + fuel) (hx : p x = true)
    (hmin : ∀ e, d ≤ e → e < x → p e = false) : firstFrom p d fuel = x := by
  rcases Nat.lt_trichotomy (firstFrom p d fuel) x with h | h | h
  · have := hmin (firstFrom p d fuel) (le_firstFrom p d fuel) h
    rcases firstFrom_true_or_exhaust p d fuel with h' | h'
    · rw [this] at h'; exact absurd h' (by simp)
    · omega
  · exact h
  · have := firstFrom_false_of_lt p d fuel x hdx h
    rw [this] at hx; exact absurd hx (by simp)

theorem lenAt_pos (ps : List JsStr) (i : Nat) : 0 < lenAt ps i := by
  have h := splitSep_ne_nil '/' (ps.getD i [])
  unfold lenAt revParts
  simp only [List.length_reverse]
  exact List.length_pos.mpr h

theorem dstar_pos (ps : List JsStr) (i : Nat) : 1 ≤ dstar ps i :=
  le_firstFrom _ 1 _

theorem dstar_le_lenAt (ps : List JsStr) (i : Nat) : dstar ps i ≤ lenAt ps i := by
  have h := firstFrom_le (goodB ps i) 1 (lenAt ps i - 1)
  have := lenAt_pos ps i
  unfold dstar
  omega

theorem goodB_dstar (ps : List JsStr) (i : Nat) : goodB ps i (dstar ps i) = true := by
  rcases firstFrom_true_or_exhaust (goodB ps i) 1 (lenAt ps i - 1) with h | h
  · exact h
  · have hl := lenAt_pos ps i
    unfold dstar
    rw [h]
    have : 1 + (lenAt ps i - 1) = lenAt ps i := by omega
    rw [this]
    simp [goodB]

theorem goodB_false_of_lt_dstar (ps : List JsStr) (i : Nat) :
    ∀ e, 1 ≤ e → e < dstar ps i → goodB ps i e = false :=
  firstFrom_false_of_lt (goodB ps i) 1 (lenAt ps i - 1)

theorem dstar_le_of_good (ps : List JsStr) (i x : Nat) (hx1 : 1 ≤ x)
    (hx : goodB ps i x = true) : dstar ps i ≤ x := by
  by_contra h
  have := goodB_false_of_lt_dstar ps i x hx1 (by omega)
  rw [this] at hx
  exact absurd hx (by simp)

theorem lenAt_ge_of_lt_dstar (ps : List JsStr) (i r : Nat) (h : r < dstar ps i) :
    r < lenAt ps i := Nat.lt_of_lt_of_le h (dstar_le_lenAt ps i)

/-! ### Segment lists are separator-free, keys are injective -/

theorem sepFree_revParts (ps : List JsStr) (i : Nat) :
    ∀ t ∈ revParts ps i, '/' ∉ t := by
  intro t ht
  unfold revParts at ht
  rw [List.mem_reverse] at ht
  exact not_mem_of_mem_splitSep ht

theorem sepFree_take_revParts (ps : List JsStr) (i d : Nat) :
    ∀ t ∈ (revParts ps i).take d, '/' ∉ t :=
  fun t ht => sepFree_revParts ps i t (List.mem_of_mem_take ht)

theorem revParts_ne_nil (ps : List JsStr) (i : Nat) : revParts ps i ≠ [] := by
  unfold revParts
  simp only [ne_eq, List.reverse_eq_nil_iff]
  exact splitSep_ne_nil '/' _

theorem take_revParts_ne_nil (ps : List JsStr) (i d : Nat) (hd : 1 ≤ d) :
    (revParts ps i).take d ≠ [] :=
  take_ne_nil_of_ne_nil (revParts_ne_nil ps i) (by omega)

theorem beq_congr {α β : Type} [DecidableEq α] [DecidableEq β] {a b : α} {x y : β}
    (h : a = b ↔ x = y) : (a == b) = (x == y) := by
  by_cases hx : x = y
  · simp [hx, h.mpr hx]
  · have hab : a ≠ b := fun hh => hx (h.mp hh)
    simp [hx, hab]

theorem joinSep_take_iff (ps : List JsStr) (i j d : Nat) (hd : 1 ≤ d) :
    joinSep '/' ((revParts ps j).take d) = joinSep '/' ((revParts ps i).take d) ↔
      (revParts ps j).take d = (revParts ps i).take d := by
  constructor
  · intro h
    exact joinSep_inj (take_revParts_ne_nil ps j d hd) (take_revParts_ne_nil ps i d hd)
      (sepFree_take_revParts ps j d) (sepFree_take_revParts ps i d) h
  · intro h; rw [h]

/-- Count since the claims compare: the number of paths sharing the last `d`
segments of path `i` is positive, path `i` itself being counted. -/
theorem fullCount_pos (ps : List JsStr) (i d : Nat) (hi : i < ps.length) :
    0 < fullCount ps i d := by
  unfold fullCount
  rw [List.countP_eq_length_filter]
  apply List.length_pos.mpr
  intro hnil
  have : i ∈ List.filter (fun j => takeEqB ps d i j) (List.range ps.length) := by
    rw [List.mem_filter]
    exact ⟨List.mem_range.mpr hi, by simp [takeEqB]⟩
  rw [hnil] at this
  exact absurd this (List.not_mem_nil i)

theorem uniqB_iff (ps : List JsStr) (i d : Nat) (hi : i < ps.length) :
    uniqB ps i d = true ↔
      ∀ j, j < ps.length → j ≠ i →
        (revParts ps j).take d ≠ (revParts ps i).take d := by
  unfold uniqB
  rw [beq_iff_eq]
  constructor
  · intro h j hj hji heq
    rw [fullCount, List.countP_eq_length_filter, List.length_eq_one] at h
    obtain ⟨a, ha⟩ := h
    have hmi : i ∈ List.filter (fun j => takeEqB ps d i j) (List.range ps.length) := by
      rw [List.mem_filter]
      exact ⟨List.mem_range.mpr hi, by simp [takeEqB]⟩
    have hmj : j ∈ List.filter (fun j => takeEqB ps d i j) (List.range ps.length) := by
      rw [List.mem_filter]
      exact ⟨List.mem_range.mpr hj, by simp [takeEqB, heq]⟩
    rw [ha] at hmi hmj
    simp only [List.mem_singleton] at hmi hmj
    exact hji (hmj.trans hmi.symm)
  · intro h
    unfold fullCount
    have hc : ∀ j ∈ List.range ps.length,
        takeEqB ps d i j = true ↔ (j == i) = true := by
      intro j hj
      by_cases hji : j = i
      · subst hji; simp [takeEqB]
      · have := h j (List.mem_range.mp hj) hji
        simp [takeEqB, this, hji]
    rw [List.countP_congr hc]
    have : (List.range ps.length).countP (fun j => j == i) =
        (List.range ps.length).count i := rfl
    rw [this]
    exact List.count_eq_one_of_mem (List.nodup_range ps.length)
      (List.mem_range.mpr hi)

/-- Central observation behind the algorithm's correctness: a path whose
length-`(r+1)` segment suffix collides with that of a path that is still
being extended after `r` rounds is itself still being extended: a path
retired earlier was either unique at a smaller depth (contradicting the
collision) or shorter than `r+1` segments (contradicting equal lengths). -/
theorem live_of_takeEq (ps : List JsStr) (i j r : Nat) (hi : i < ps.length)
    (hj : j < ps.length) (hij : j ≠ i) (hdi : r < dstar ps i)
    (heq : (revParts ps j).take (r + 1) = (revParts ps i).take (r + 1)) :
    r < dstar ps j := by
  by_contra hcon
  push_neg at hcon
  have hg := goodB_dstar ps j
  unfold goodB at hg
  rw [Bool.or_eq_true] at hg
  have hleni : r < lenAt ps i := lenAt_ge_of_lt_dstar ps i r hdi
  rcases hg with hu | hlen
  · -- path j was detected unique at depth dstar j ≤ r: but path i collides there
    have hd1 : 1 ≤ dstar ps j := dstar_pos ps j
    have hu2 : uniqB ps j (dstar ps j) = true := by
      rw [Bool.and_eq_true] at hu
      exact hu.2
    have := (uniqB_iff ps j (dstar ps j) hj).mp hu2 i hi
      (fun he => hij he.symm)
    apply this
    have h1 : (revParts ps i).take (dstar ps j) =
        ((revParts ps i).take (r + 1)).take (dstar ps j) := by
      rw [List.take_take]
      congr 1
      omega
    have h2 : (revParts ps j).take (dstar ps j) =
        ((revParts ps j).take (r + 1)).take (dstar ps j) := by
      rw [List.take_take]
      congr 1
      omega
    rw [h1, h2, heq]
  · -- path j was exhausted at depth dstar j = lenAt j ≤ r: lengths differ
    rw [beq_iff_eq] at hlen
    have hlenj : lenAt ps j ≤ r := hlen ▸ hcon
    have := congrArg List.length heq
    rw [List.length_take, List.length_take] at this
    unfold lenAt at hlenj hleni
    omega

/-! ### Evaluating the `seenCount` object

The fold that builds `seenCount` is evaluated per key: an ordinary key
ends up owning its exact count, a prototype-named key ends up owning `NaN`
(or, for `__proto__`, nothing), so `seenCount[path] === 1` holds exactly
for non-prototype-named keys counted once. -/

theorem bool_eq_of_iff {a b : Bool} (h : a = true ↔ b = true) : a = b := by
  cases a <;> cases b <;> simp_all

theorem writeProp_at_other (own : JsStr → Option JsNum) (k : JsStr) (v : JsNum)
    (k2 : JsStr) (h : k2 ≠ k) : writeProp own k v k2 = own k2 := by
  unfold writeProp
  by_cases hk : k = protoKey
  · rw [if_pos hk]
  · rw [if_neg hk]
    simp [if_neg h]

theorem writeProp_at_proto (own : JsStr → Option JsNum) (v : JsNum) :
    writeProp own protoKey v = own := by
  unfold writeProp
  rw [if_pos rfl]

theorem writeProp_at_key (own : JsStr → Option JsNum) (k : JsStr) (v : JsNum)
    (hk : k ≠ protoKey) : writeProp own k v k = some v := by
  unfold writeProp
  rw [if_neg hk]
  simp

theorem seenCountStep_at_key (own : JsStr → Option JsNum) (k : JsStr) :
    seenCountStep own k k = seenCountTransition k (own k) := by
  unfold seenCountStep seenCountTransition
  by_cases hk : k = protoKey
  · subst hk
    rw [if_pos rfl]
    cases hread : readProp own protoKey with
    | none =>
      show writeProp own protoKey (JsNum.num 1) protoKey = own protoKey
      rw [writeProp_at_proto]
    | some v =>
      show writeProp own protoKey (jsNumAdd1 (toNumber v)) protoKey = own protoKey
      rw [writeProp_at_proto]
  · rw [if_neg hk]
    cases hread : own k with
    | some v =>
      have hr : readProp own k = some (JsPropValue.jsNum v) := by
        unfold readProp
        rw [hread]
      rw [hr]
      show writeProp own k (jsNumAdd1 (toNumber (JsPropValue.jsNum v))) k =
        some (jsNumAdd1 v)
      rw [writeProp_at_key own k _ hk]
      rfl
    | none =>
      by_cases hc : objectPrototypeKeys.contains k
      · have hr : readProp own k = some JsPropValue.protoFunction := by
          unfold readProp
          rw [hread, if_pos hc]
        rw [hr]
        show writeProp own k (jsNumAdd1 (toNumber JsPropValue.protoFunction)) k =
          if objectPrototypeKeys.contains k = true then some JsNum.nan
          else some (JsNum.num 1)
        rw [if_pos hc, writeProp_at_key own k _ hk]
        rfl
      · have hr : readProp own k = none := by
          unfold readProp
          rw [hread, if_neg hc]
        rw [hr]
        show writeProp own k (JsNum.num 1) k =
          if objectPrototypeKeys.contains k = true then some JsNum.nan
          else some (JsNum.num 1)
        rw [if_neg hc, writeProp_at_key own k _ hk]

theorem seenCountStep_at_other (own : JsStr → Option JsNum) (k k2 : JsStr)
    (h : k2 ≠ k) : seenCountStep own k k2 = own k2 := by
  unfold seenCountStep
  cases hread : readProp own k with
  | none =>
    show writeProp own k (JsNum.num 1) k2 = own k2
    exact writeProp_at_other own k _ k2 h
  | some v =>
    show writeProp own k (jsNumAdd1 (toNumber v)) k2 = own k2
    exact writeProp_at_other own k _ k2 h

theorem foldl_seenCount (l : List DisplayPath) (own : JsStr → Option JsNum)
    (k : JsStr) :
    (l.foldl (fun o r => seenCountStep o (keyOf r)) own) k =
      (seenCountTransition k)^[l.countP (fun r => keyOf r == k)] (own k) := by
  induction l generalizing own with
  | nil => rfl
  | cons r rest ih =>
    rw [List.foldl_cons, ih, List.countP_cons]
    by_cases hr : keyOf r = k
    · rw [if_pos (by simp [hr])]
      rw [hr, seenCountStep_at_key, ← Function.iterate_succ_apply]
    · rw [if_neg (by simp [hr])]
      rw [seenCountStep_at_other own (keyOf r) k (fun he => hr he.symm),
        Nat.add_zero]

theorem buildSeenCount_eval (toProcess : List DisplayPath) (k : JsStr) :
    buildSeenCount toProcess k =
      (seenCountTransition k)^[seenCountOf toProcess k] none := by
  unfold buildSeenCount
  exact foldl_seenCount toProcess (fun _ => none) k

theorem seenCountEqOne_eq (toProcess : List DisplayPath) (k : JsStr) :
    seenCountEqOne (buildSeenCount toProcess) k =
      (!(objectPrototypeKeys.contains k) && (seenCountOf toProcess k == 1)) := by
  by_cases hc : objectPrototypeKeys.contains k
  · -- prototype-named key: the === 1 test is always false
    have hrhs : (!(objectPrototypeKeys.contains k) &&
        (seenCountOf toProcess k == 1)) = false := by
      rw [hc]
      rfl
    rw [hrhs]
    unfold seenCountEqOne
    by_cases hp : k = protoKey
    · have hown : buildSeenCount toProcess k = none := by
        rw [buildSeenCount_eval, hp]
        exact Function.iterate_fixed
          (by unfold seenCountTransition; rw [if_pos rfl]) _
      have hrp : readProp (buildSeenCount toProcess) k =
          some JsPropValue.protoFunction := by
        unfold readProp
        rw [hown, if_pos hc]
      rw [hrp]
      decide
    · have hval : buildSeenCount toProcess k = none ∨
          buildSeenCount toProcess k = some JsNum.nan := by
        rw [buildSeenCount_eval]
        generalize seenCountOf toProcess k = m
        induction m with
        | zero => exact Or.inl rfl
        | succ n ihm =>
          rw [Function.iterate_succ_apply']
          right
          rcases ihm with h | h <;> rw [h]
          · unfold seenCountTransition
            rw [if_neg hp]
            show (if objectPrototypeKeys.contains k = true then some JsNum.nan
              else some (JsNum.num 1)) = some JsNum.nan
            rw [if_pos hc]
          · unfold seenCountTransition
            rw [if_neg hp]
            rfl
      rcases hval with h | h
      · have hrp : readProp (buildSeenCount toProcess) k =
            some JsPropValue.protoFunction := by
          unfold readProp
          rw [h, if_pos hc]
        rw [hrp]
        decide
      · have hrp : readProp (buildSeenCount toProcess) k =
            some (JsPropValue.jsNum JsNum.nan) := by
          unfold readProp
          rw [h]
        rw [hrp]
        decide
  · -- ordinary key: the === 1 test is the exact count comparison
    have hkp : k ≠ protoKey := fun he =>
      hc (he ▸ (by decide : objectPrototypeKeys.contains protoKey = true))
    have hcfalse : objectPrototypeKeys.contains k = false := by
      cases h : objectPrototypeKeys.contains k
      · rfl
      · exact absurd h hc
    have hval : ∀ m, (seenCountTransition k)^[m] none =
        if m = 0 then none else some (JsNum.num m) := by
      intro m
      induction m with
      | zero => rfl
      | succ n ihm =>
        rw [Function.iterate_succ_apply', ihm]
        by_cases hn : n = 0
        · subst hn
          rw [if_pos rfl, if_neg (Nat.succ_ne_zero 0)]
          unfold seenCountTransition
          rw [if_neg hkp]
          show (if objectPrototypeKeys.contains k = true then some JsNum.nan
            else some (JsNum.num 1)) = some (JsNum.num 1)
          rw [if_neg hc]
        · rw [if_neg hn, if_neg (Nat.succ_ne_zero n)]
          unfold seenCountTransition
          rw [if_neg hkp]
          rfl
    have hb : buildSeenCount toProcess k =
        if seenCountOf toProcess k = 0 then none
        else some (JsNum.num (seenCountOf toProcess k)) := by
      rw [buildSeenCount_eval]
      exact hval _
    unfold seenCountEqOne
    by_cases hz : seenCountOf toProcess k = 0
    · have hrp : readProp (buildSeenCount toProcess) k = none := by
        unfold readProp
        rw [hb, if_pos hz, if_neg hc]
      rw [hrp, hz, hcfalse]
      decide
    · have hrp : readProp (buildSeenCount toProcess) k =
          some (JsPropValue.jsNum (JsNum.num (seenCountOf toProcess k))) := by
        unfold readProp
        rw [hb, if_neg hz]
      rw [hrp, hcfalse, Bool.not_false, Bool.true_and]
      apply bool_eq_of_iff
      constructor
      · intro h
        rw [beq_iff_eq] at h ⊢
        exact JsNum.num.inj (JsPropValue.jsNum.inj (Option.some.inj h))
      · intro h
        rw [beq_iff_eq] at h ⊢
        rw [h]

/-! ### The round invariant: after `r` rounds the state is `stateAt ps r` -/

theorem seenCount_stateAt (ps : List JsStr) (r i : Nat) (hi : i < ps.length)
    (hdi : r < dstar ps i) :
    seenCountOf ((stateAt ps r).filter (fun x => !x.done))
      (joinSep '/' ((revParts ps i).take (r + 1))) = fullCount ps i (r + 1) := by
  unfold seenCountOf stateAt fullCount
  rw [List.countP_filter, List.countP_map]
  apply List.countP_congr
  intro j hj
  have hjn : j < ps.length := List.mem_range.mp hj
  simp only [Function.comp_apply]
  by_cases hd : dstar ps j ≤ r
  · -- record j already done: it contributes neither count
    rw [if_pos hd]
    simp only [Bool.not_true, Bool.and_false, Bool.false_eq_true, false_iff]
    intro htake
    rw [takeEqB, beq_iff_eq] at htake
    have hji : j ≠ i := by
      intro he
      subst he
      omega
    exact absurd (live_of_takeEq ps i j r hi hjn hji hdi htake) (by omega)
  · -- record j still live at depth r + 1
    rw [if_neg hd]
    simp only [keyOf, Bool.not_false, Bool.and_true]
    rw [takeEqB]
    constructor
    · intro h
      rw [beq_iff_eq] at h ⊢
      exact (joinSep_take_iff ps i j (r + 1) (by omega)).mp h
    · intro h
      rw [beq_iff_eq] at h ⊢
      exact (joinSep_take_iff ps i j (r + 1) (by omega)).mpr h

theorem stateAt_length (ps : List JsStr) (r : Nat) :
    (stateAt ps r).length = ps.length := by
  simp [stateAt]

theorem stateAt_getElem (ps : List JsStr) (r i : Nat)
    (h : i < (stateAt ps r).length) :
    (stateAt ps r)[i] =
      if dstar ps i ≤ r then ⟨'/', revParts ps i, dstar ps i, true⟩
      else ⟨'/', revParts ps i, r + 1, false⟩ := by
  simp [stateAt]

theorem roundStep_stateAt (ps : List JsStr) (r : Nat) :
    roundStep (stateAt ps r) = stateAt ps (r + 1) := by
  have hunfold : roundStep (stateAt ps r) = (stateAt ps r).map (fun x =>
      if x.done then x
      else if seenCountEqOne
            (buildSeenCount ((stateAt ps r).filter (fun q => !q.done)))
            (keyOf x) ||
          x.depth == x.pathParts.length then
        { x with done := true }
      else
        { x with depth := x.depth + 1 }) := rfl
  apply List.ext_getElem
  · rw [hunfold]
    simp [stateAt_length]
  · intro i h1 h2
    have hin : i < ps.length := by
      rw [hunfold, List.length_map, stateAt_length] at h1
      exact h1
    simp only [hunfold, List.getElem_map, stateAt_getElem]
    by_cases hdone : dstar ps i ≤ r
    · rw [if_pos hdone, if_pos (by omega : dstar ps i ≤ r + 1)]
      rfl
    · push_neg at hdone
      rw [if_neg (by omega : ¬dstar ps i ≤ r)]
      have hkey : keyOf ⟨'/', revParts ps i, r + 1, false⟩ =
          joinSep '/' ((revParts ps i).take (r + 1)) := rfl
      have hcount := seenCount_stateAt ps r i hin hdone
      simp only [show (DisplayPath.done ⟨'/', revParts ps i, r + 1, false⟩) = false from rfl,
        Bool.false_eq_true, if_false, hkey]
      rw [seenCountEqOne_eq, hcount]
      by_cases hg : goodB ps i (r + 1) = true
      · have hcond : ((!(objectPrototypeKeys.contains
              (joinSep '/' ((revParts ps i).take (r + 1)))) &&
            (fullCount ps i (r + 1) == 1)) ||
            (r + 1 : Nat) == (revParts ps i).length) = true := hg
        rw [if_pos hcond]
        have hds : dstar ps i = r + 1 := by
          have := dstar_le_of_good ps i (r + 1) (by omega) hg
          omega
        rw [if_pos (by omega : dstar ps i ≤ r + 1), hds]
      · have hcond : ¬(((!(objectPrototypeKeys.contains
              (joinSep '/' ((revParts ps i).take (r + 1)))) &&
            (fullCount ps i (r + 1) == 1)) ||
            (r + 1 : Nat) == (revParts ps i).length) = true) := hg
        rw [if_neg hcond]
        have hds : ¬dstar ps i ≤ r + 1 := by
          intro hle
          have hds : dstar ps i = r + 1 := by omega
          exact hg (hds ▸ goodB_dstar ps i)
        rw [if_neg hds]

theorem roundIter_stateAt (ps : List JsStr) (r k : Nat) :
    roundIter k (stateAt ps r) = stateAt ps (r + k) := by
  induction k generalizing r with
  | zero => rfl
  | succ n ih =>
    show roundIter n (roundStep (stateAt ps r)) = _
    rw [roundStep_stateAt, ih]
    congr 1
    omega

theorem initialDisplayPaths_eq_stateAt (ps : List JsStr) :
    initialDisplayPaths ps = stateAt ps 0 := by
  unfold initialDisplayPaths stateAt
  apply List.ext_getElem
  · simp
  · intro i h1 h2
    simp only [List.getElem_map, List.getElem_range]
    rw [if_neg (by have := dstar_pos ps i; omega : ¬dstar ps i ≤ 0)]
    have hi : i < ps.length := by simpa using h1
    simp only [pathSeparatorFor, revParts, List.getD_eq_getElem ps [] hi]

theorem roundStep_of_all_done (recs : List DisplayPath)
    (h : recs.any (fun r => !r.done) = false) : roundStep recs = recs := by
  rw [List.any_eq_false] at h
  unfold roundStep
  conv_rhs => rw [← List.map_id recs]
  apply List.map_congr_left
  intro x hx
  have : x.done = true := by
    have := h x hx
    simpa using this
  simp [this]

theorem roundIter_of_all_done (k : Nat) (recs : List DisplayPath)
    (h : recs.any (fun r => !r.done) = false) : roundIter k recs = recs := by
  induction k with
  | zero => rfl
  | succ n ih =>
    show roundIter n (roundStep recs) = recs
    rw [roundStep_of_all_done recs h, ih]

theorem loopGo_eq_roundIter (k : Nat) (recs : List DisplayPath) :
    loopGo k recs = roundIter k recs := by
  induction k generalizing recs with
  | zero => rfl
  | succ n ih =>
    show (if recs.any (fun r => !r.done) then loopGo n (roundStep recs) else recs) = _
    by_cases h : recs.any (fun r => !r.done)
    · rw [if_pos h]
      exact ih (roundStep recs)
    · rw [if_neg h]
      have hfalse : recs.any (fun r => !r.done) = false := by
        simpa using h
      rw [show roundIter (n + 1) recs = roundIter n (roundStep recs) from rfl,
        roundStep_of_all_done recs hfalse, roundIter_of_all_done n recs hfalse]

/-- Master characterization of `computeDisplayPaths`: the `i`-th output is
the last `min (dstar ps i) (max maxDepth 1)` segments of the `i`-th input
path, rejoined — the least depth at which the suffix is unique in the list
or the whole path, capped by `maxDepth`. -/
theorem computeDisplayPaths_eq (ps : List JsStr) (m : Nat) :
    computeDisplayPaths ps m = (List.range ps.length).map
      (fun i => joinSep '/'
        (((revParts ps i).take (min (dstar ps i) (max m 1))).reverse)) := by
  rw [show computeDisplayPaths ps m = (loopGo (m - 1) (initialDisplayPaths ps)).map
      (fun r => joinSep r.separator ((r.pathParts.take r.depth).reverse)) from rfl]
  rw [initialDisplayPaths_eq_stateAt, loopGo_eq_roundIter, roundIter_stateAt]
  rw [show (0 + (m - 1)) = m - 1 by omega]
  rw [stateAt, List.map_map]
  apply List.map_congr_left
  intro i hi
  simp only [Function.comp_apply]
  by_cases h : dstar ps i ≤ m - 1
  · rw [if_pos h]
    have hmin : min (dstar ps i) (max m 1) = dstar ps i := by
      have := dstar_pos ps i
      omega
    rw [hmin]
  · rw [if_neg h]
    have hmin : min (dstar ps i) (max m 1) = (m - 1) + 1 := by
      have := dstar_pos ps i
      omega
    rw [hmin]

theorem computeDisplayPaths_length (ps : List JsStr) (m : Nat) :
    (computeDisplayPaths ps m).length = ps.length := by
  rw [computeDisplayPaths_eq]
  simp

theorem computeDisplayPaths_getD (ps : List JsStr) (m i : Nat) (hi : i < ps.length) :
    (computeDisplayPaths ps m).getD i [] = joinSep '/'
      (((revParts ps i).take (min (dstar ps i) (max m 1))).reverse) := by
  rw [computeDisplayPaths_eq]
  have hlen : i < ((List.range ps.length).map
      (fun i => joinSep '/'
        (((revParts ps i).take (min (dstar ps i) (max m 1))).reverse))).length := by
    simpa using hi
  rw [List.getD_eq_getElem _ [] hlen]
  simp

/-! ### The spec's least-unique-depth description matches the algorithm -/

theorem suffixUniqueB_spec (ps : List JsStr) (i d : Nat) :
    suffixUniqueB ps i d = true ↔
      ∀ j, j < ps.length → j ≠ i →
        (revParts ps j).take d ≠ (revParts ps i).take d := by
  unfold suffixUniqueB
  rw [List.all_eq_true]
  constructor
  · intro h j hj hji heq
    have := h j (List.mem_range.mpr hj)
    rw [Bool.or_eq_true] at this
    rcases this with h1 | h1
    · exact hji (by simpa using h1)
    · rw [Bool.not_eq_true', beq_eq_false_iff_ne] at h1
      exact h1 heq
  · intro h j hj
    rw [Bool.or_eq_true]
    by_cases hji : j = i
    · left; simp [hji]
    · right
      rw [Bool.not_eq_true', beq_eq_false_iff_ne]
      exact h j (List.mem_range.mp hj) hji

theorem suffixUniqueB_eq_uniqB (ps : List JsStr) (i : Nat) (hi : i < ps.length)
    (d : Nat) : suffixUniqueB ps i d = uniqB ps i d :=
  bool_eq_of_iff ((suffixUniqueB_spec ps i d).trans (uniqB_iff ps i d hi).symm)

theorem min_firstFrom_arith (U : Nat → Bool) (L : Nat) (hL : 1 ≤ L) :
    min (firstFrom (fun d => U d || d == L) 1 (L - 1)) 5 =
      firstFrom U 1 (min 5 L - 1) := by
  have hD1 : 1 ≤ firstFrom (fun d => U d || d == L) 1 (L - 1) :=
    le_firstFrom _ 1 _
  have hDle : firstFrom (fun d => U d || d == L) 1 (L - 1) ≤ L := by
    have := firstFrom_le (fun d => U d || d == L) 1 (L - 1)
    omega
  have hDmin := firstFrom_false_of_lt (fun d => U d || d == L) 1 (L - 1)
  have hDgood : (U (firstFrom (fun d => U d || d == L) 1 (L - 1)) ||
      firstFrom (fun d => U d || d == L) 1 (L - 1) == L) = true := by
    rcases firstFrom_true_or_exhaust (fun d => U d || d == L) 1 (L - 1) with h | h
    · exact h
    · rw [h, show 1 + (L - 1) = L by omega]
      simp
  have hF1 : 1 ≤ firstFrom U 1 (min 5 L - 1) := le_firstFrom _ 1 _
  have hFle : firstFrom U 1 (min 5 L - 1) ≤ min 5 L := by
    have := firstFrom_le U 1 (min 5 L - 1)
    omega
  have hFmin := firstFrom_false_of_lt U 1 (min 5 L - 1)
  by_cases hUF : U (firstFrom U 1 (min 5 L - 1)) = true
  · -- the spec's depth is genuinely unique, so it is the algorithm's depth too
    have hgoodF : (U (firstFrom U 1 (min 5 L - 1)) ||
        firstFrom U 1 (min 5 L - 1) == L) = true := by simp [hUF]
    have hminF : ∀ e, 1 ≤ e → e < firstFrom U 1 (min 5 L - 1) →
        (U e || e == L) = false := by
      intro e h1 h2
      have hUe := hFmin e h1 h2
      have heL : e ≠ L := by omega
      simp [hUe, heL]
    have hDF := firstFrom_eq_of (fun d => U d || d == L) 1 (L - 1)
      (firstFrom U 1 (min 5 L - 1)) hF1 (by omega) hgoodF hminF
    omega
  · have hUFfalse : U (firstFrom U 1 (min 5 L - 1)) = false := by
      cases h : U (firstFrom U 1 (min 5 L - 1))
      · rfl
      · exact absurd h hUF
    have hFexh : firstFrom U 1 (min 5 L - 1) = min 5 L := by
      rcases firstFrom_true_or_exhaust U 1 (min 5 L - 1) with h | h
      · exact absurd h hUF
      · omega
    have hUfalse : ∀ e, 1 ≤ e → e ≤ firstFrom U 1 (min 5 L - 1) → U e = false := by
      intro e h1 h2
      rcases Nat.eq_or_lt_of_le h2 with h3 | h3
      · exact h3 ▸ hUFfalse
      · exact hFmin e h1 h3
    by_cases h5 : L ≤ 5
    · -- every capped depth is ambiguous and the cap is the whole path
      have hDL : firstFrom (fun d => U d || d == L) 1 (L - 1) = L := by
        apply firstFrom_eq_of _ 1 (L - 1) L hL (by omega)
        · simp
        · intro e h1 h2
          have hU := hUfalse e h1 (by omega)
          have heL : e ≠ L := by omega
          simp [hU, heL]
      omega
    · -- every capped depth is ambiguous and shorter than the path
      have hD6 : 5 < firstFrom (fun d => U d || d == L) 1 (L - 1) := by
        by_contra hcon
        push_neg at hcon
        have hU := hUfalse (firstFrom (fun d => U d || d == L) 1 (L - 1)) hD1
          (by omega)
        have hDL : firstFrom (fun d => U d || d == L) 1 (L - 1) ≠ L := by omega
        rw [hU] at hDgood
        simp only [Bool.false_or, beq_iff_eq] at hDgood
        exact hDL hDgood
      omega

theorem min_dstar_five (ps : List JsStr) (i : Nat) (hi : i < ps.length) :
    min (dstar ps i) 5 = specUniqueDepthAmended ps i := by
  have hpred : specSafeUniqueB ps i =
      fun d => protoFreeB ps i d && uniqB ps i d := by
    funext d
    unfold specSafeUniqueB
    rw [suffixUniqueB_eq_uniqB ps i hi]
  unfold specUniqueDepthAmended dstar
  rw [hpred]
  have hgood : goodB ps i =
      fun d => (protoFreeB ps i d && uniqB ps i d) || d == lenAt ps i := rfl
  rw [hgood]
  exact min_firstFrom_arith (fun d => protoFreeB ps i d && uniqB ps i d)
    (lenAt ps i) (lenAt_pos ps i)

/-- Counterexample to claim C1 as stated: for the single absolute path
`/a/constructor`, the shortest segment suffix occurring in no other path
is `constructor` (depth 1, and `specDisplayPath` spells out the claim's
description), but the `seenCount` object literal inherits
`Object.prototype.constructor`, so the program never sees that suffix's
count as 1 and extends it — `computeDisplayPaths` returns
`a/constructor`. -/
theorem c1_counterexample :
    (computeDisplayPaths [['/', 'a', '/', 'c', 'o', 'n', 's', 't', 'r',
        'u', 'c', 't', 'o', 'r']] 5).getD 0 [] ≠
      specDisplayPath [['/', 'a', '/', 'c', 'o', 'n', 's', 't', 'r',
        'u', 'c', 't', 'o', 'r']] 0 := by
  decide

/-- Claim C1 (amended): for every list of distinct absolute file paths,
`computeDisplayPaths` with its default depth cap of 5 returns for each
input path the shortest segment suffix of that path that does not occur as
an equal-length segment suffix of any other path of the list *and* whose
joined key is not an `Object.prototype` property name (such keys are never
detected as unique by the plain-object `seenCount` and are extended
further) — the suffix never being extended beyond 5 segments or the
path's full length (`specDisplayPathAmended` spells out exactly that
description). -/
theorem c1_computeDisplayPaths_unique_suffix_amended (ps : List JsStr)
    (_hnd : ps.Nodup) (_habs : ∀ p ∈ ps, isAbsolute p = true) :
    ∀ i, i < ps.length →
      (computeDisplayPaths ps 5).getD i [] = specDisplayPathAmended ps i := by
  intro i hi
  rw [computeDisplayPaths_getD ps 5 i hi]
  unfold specDisplayPathAmended
  rw [show (max 5 1) = 5 from rfl, min_dstar_five ps i hi]

/-- Witness for C1 at the source's own doc example
`['/a/b/c.js', '/a/d/c.js']`. -/
theorem c1_witness :
    (computeDisplayPaths [['/', 'a', '/', 'b', '/', 'c'], ['/', 'a', '/', 'd', '/', 'c']]
      5).getD 0 [] =
      specDisplayPathAmended
        [['/', 'a', '/', 'b', '/', 'c'], ['/', 'a', '/', 'd', '/', 'c']] 0 :=
  c1_computeDisplayPaths_unique_suffix_amended
    [['/', 'a', '/', 'b', '/', 'c'], ['/', 'a', '/', 'd', '/', 'c']]
    (by decide) (by decide) 0 (by decide)

/-! ### Shape and termination of `computeDisplayPaths` (claims C8 and C9) -/

/-- Claim C8: for every input list and every `maxDepth`,
`computeDisplayPaths` returns exactly one display path per input path, in
input order, and the `i`-th display path is a contiguous suffix of the
`i`-th path's segment list (at least one segment, at most all of them),
rejoined with that path's own separator. -/
theorem c8_computeDisplayPaths_shape (ps : List JsStr) (m : Nat) :
    (computeDisplayPaths ps m).length = ps.length ∧
    ∀ i, i < ps.length → ∃ d, 1 ≤ d ∧
      d ≤ (splitSep (pathSeparatorFor (ps.getD i [])) (ps.getD i [])).length ∧
      (computeDisplayPaths ps m).getD i [] =
        joinSep (pathSeparatorFor (ps.getD i []))
          ((splitSep (pathSeparatorFor (ps.getD i [])) (ps.getD i [])).drop
            ((splitSep (pathSeparatorFor (ps.getD i [])) (ps.getD i [])).length - d)) := by
  refine ⟨computeDisplayPaths_length ps m, ?_⟩
  intro i hi
  refine ⟨min (dstar ps i) (max m 1), ?_, ?_, ?_⟩
  · have := dstar_pos ps i
    omega
  · have h1 := dstar_le_lenAt ps i
    have h2 : lenAt ps i = (splitSep '/' (ps.getD i [])).length := by
      unfold lenAt revParts
      exact List.length_reverse _
    unfold pathSeparatorFor
    omega
  · rw [computeDisplayPaths_getD ps m i hi]
    unfold pathSeparatorFor revParts
    rw [List.take_reverse, List.reverse_reverse]

/-- Record-level description of one loop round, needed by claims C2 and
C9: a record whose depth has reached its segment count is marked done. -/
theorem roundStep_marks_full_done (recs : List DisplayPath) (i : Nat)
    (hi : i < recs.length)
    (hdone : (recs.getD i dummyDisplayPath).done = false)
    (hfull : (recs.getD i dummyDisplayPath).depth =
      (recs.getD i dummyDisplayPath).pathParts.length) :
    ((roundStep recs).getD i dummyDisplayPath).done = true := by
  have hlen : i < (roundStep recs).length := by
    simpa [roundStep] using hi
  rw [List.getD_eq_getElem _ _ hlen]
  rw [List.getD_eq_getElem _ _ hi] at hdone hfull
  have : roundStep recs = recs.map (fun x =>
      if x.done then x
      else if seenCountEqOne (buildSeenCount (recs.filter (fun q => !q.done)))
            (keyOf x) ||
          x.depth == x.pathParts.length then
        { x with done := true }
      else
        { x with depth := x.depth + 1 }) := rfl
  simp only [this, List.getElem_map]
  rw [if_neg (by simp [hdone])]
  rw [if_pos (by simp [hfull])]

/-- Claim C9 (amended): `computeDisplayPaths` is total, its round loop
runs at most `maxDepth - 1` rounds, a live record whose depth reaches its
segment count is marked done, and a duplicated path yields its entire path
as display path provided it has at most `max maxDepth 1` segments (the
claim's unconditional parenthetical fails for longer duplicates, see the
counterexample). -/
theorem c9_computeDisplayPaths_termination (ps : List JsStr) (m : Nat) :
    (∀ recs : List DisplayPath, ∃ k, k ≤ m - 1 ∧
      loopGo (m - 1) recs = roundIter k recs) ∧
    (∀ recs : List DisplayPath, ∀ i, i < recs.length →
      (recs.getD i dummyDisplayPath).done = false →
      (recs.getD i dummyDisplayPath).depth =
        (recs.getD i dummyDisplayPath).pathParts.length →
      ((roundStep recs).getD i dummyDisplayPath).done = true) ∧
    (∀ i j, i < ps.length → j < ps.length → i ≠ j →
      ps.getD i [] = ps.getD j [] → lenAt ps i ≤ max m 1 →
      (computeDisplayPaths ps m).getD i [] = ps.getD i []) := by
  refine ⟨fun recs => ⟨m - 1, Nat.le_refl _, loopGo_eq_roundIter (m - 1) recs⟩,
    fun recs i hi => roundStep_marks_full_done recs i hi, ?_⟩
  intro i j hi hj hij hdup hlen
  have hparts : revParts ps j = revParts ps i := by
    unfold revParts
    rw [hdup]
  have huniq : ∀ d, uniqB ps i d = false := by
    intro d
    cases h : uniqB ps i d
    · rfl
    · have := (uniqB_iff ps i d hi).mp h j hj (fun he => hij he.symm)
      rw [hparts] at this
      exact absurd rfl this
  have hdstar : dstar ps i = lenAt ps i := by
    apply firstFrom_eq_of _ 1 (lenAt ps i - 1) (lenAt ps i) (lenAt_pos ps i)
      (by have := lenAt_pos ps i; omega)
    · simp [goodB]
    · intro e h1 h2
      unfold goodB
      rw [huniq e]
      have : e ≠ lenAt ps i := by omega
      simp [this]
  rw [computeDisplayPaths_getD ps m i hi]
  have hmin : min (dstar ps i) (max m 1) = lenAt ps i := by omega
  rw [hmin]
  unfold lenAt
  rw [List.take_length, revParts, List.reverse_reverse, joinSep_splitSep]

/-- Counterexample to the parenthetical of claim C9: the duplicated
six-segment path `/1/2/3/4/5/6` (seven segments counting the leading empty
one) does not yield its entire path — only its last five segments. -/
theorem c9_counterexample :
    (computeDisplayPaths [['/', '1', '/', '2', '/', '3', '/', '4', '/', '5', '/', '6'],
        ['/', '1', '/', '2', '/', '3', '/', '4', '/', '5', '/', '6']] 5).getD 0 [] ≠
      ['/', '1', '/', '2', '/', '3', '/', '4', '/', '5', '/', '6'] := by
  decide

/-- Witness for C8 at a one-path input. -/
theorem c8_witness :
    1 ≤ 1 ∧ 1 ≤ (splitSep (pathSeparatorFor ['/', 'a']) ['/', 'a']).length ∧
      (computeDisplayPaths [['/', 'a']] 5).getD 0 [] =
        joinSep (pathSeparatorFor ['/', 'a'])
          ((splitSep (pathSeparatorFor ['/', 'a']) ['/', 'a']).drop
            ((splitSep (pathSeparatorFor ['/', 'a']) ['/', 'a']).length - 1)) := by
  rcases (c8_computeDisplayPaths_shape [['/', 'a']] 5).2 0 (by decide) with
    ⟨d, hd1, hd2, hd3⟩
  have hlen2 : (splitSep (pathSeparatorFor ([['/', 'a']].getD 0 []))
      ([['/', 'a']].getD 0 [])).length = 2 := by
    decide
  have hd12 : d = 1 ∨ d = 2 := by omega
  rcases hd12 with rfl | rfl
  · exact ⟨hd1, hd2, hd3⟩
  · exact absurd hd3 (by decide)

/-- Witness for C9 at a duplicated two-segment path. -/
theorem c9_witness :
    (computeDisplayPaths [['/', 'a'], ['/', 'a']] 5).getD 0 [] = ['/', 'a'] :=
  (c9_computeDisplayPaths_termination [['/', 'a'], ['/', 'a']] 5).2.2 0 1
    (by decide) (by decide) (by decide) (by decide) (by decide)

/-! ### Round structure of `computeDisplayPaths` (claim C2) -/

theorem roundIter_init (ps : List JsStr) (r : Nat) :
    roundIter r (initialDisplayPaths ps) = stateAt ps r := by
  rw [initialDisplayPaths_eq_stateAt, roundIter_stateAt, Nat.zero_add]

theorem stateAt_getD (ps : List JsStr) (r i : Nat) (hi : i < ps.length) :
    (stateAt ps r).getD i dummyDisplayPath =
      if dstar ps i ≤ r then ⟨'/', revParts ps i, dstar ps i, true⟩
      else ⟨'/', revParts ps i, r + 1, false⟩ := by
  have hlen : i < (stateAt ps r).length := by
    rw [stateAt_length]; exact hi
  rw [List.getD_eq_getElem _ _ hlen, stateAt_getElem]

/-- Claim C2 (amended): `computeDisplayPaths` with the default cap
proceeds in (at most) four rounds of `roundStep`; in each round a done
record is left untouched, the still-ambiguous records all sit at depth
`r + 1`, and such a record becomes done — keeping its depth — exactly
when its display suffix is counted once among the still-ambiguous records
*and* its key is not an `Object.prototype` property name (for such keys
the plain-object `seenCount` never compares equal to 1), or its whole
path is used; otherwise it is extended by exactly one segment;
consequently every returned display path has at least one and at most
five segments. -/
theorem c2_computeDisplayPaths_rounds_amended (ps : List JsStr) :
    computeDisplayPaths ps 5 = (roundIter 4 (initialDisplayPaths ps)).map
      (fun x => joinSep x.separator ((x.pathParts.take x.depth).reverse)) ∧
    (∀ r i, i < ps.length →
      (((roundIter r (initialDisplayPaths ps)).getD i dummyDisplayPath).done = true →
        (roundIter (r + 1) (initialDisplayPaths ps)).getD i dummyDisplayPath =
          (roundIter r (initialDisplayPaths ps)).getD i dummyDisplayPath) ∧
      (((roundIter r (initialDisplayPaths ps)).getD i dummyDisplayPath).done = false →
        ((roundIter r (initialDisplayPaths ps)).getD i dummyDisplayPath).depth = r + 1 ∧
        ((((roundIter (r + 1) (initialDisplayPaths ps)).getD i
            dummyDisplayPath).done = true) ↔
          ((objectPrototypeKeys.contains
              (keyOf ((roundIter r (initialDisplayPaths ps)).getD i
                dummyDisplayPath)) = false ∧
            seenCountOf ((roundIter r (initialDisplayPaths ps)).filter
                (fun q => !q.done))
              (keyOf ((roundIter r (initialDisplayPaths ps)).getD i
                dummyDisplayPath)) = 1) ∨
            ((roundIter r (initialDisplayPaths ps)).getD i dummyDisplayPath).depth =
              ((roundIter r (initialDisplayPaths ps)).getD i
                dummyDisplayPath).pathParts.length)) ∧
        ((((roundIter (r + 1) (initialDisplayPaths ps)).getD i
            dummyDisplayPath).done = true) →
          ((roundIter (r + 1) (initialDisplayPaths ps)).getD i dummyDisplayPath).depth =
            ((roundIter r (initialDisplayPaths ps)).getD i dummyDisplayPath).depth) ∧
        ((((roundIter (r + 1) (initialDisplayPaths ps)).getD i
            dummyDisplayPath).done = false) →
          ((roundIter (r + 1) (initialDisplayPaths ps)).getD i dummyDisplayPath).depth =
            ((roundIter r (initialDisplayPaths ps)).getD i
              dummyDisplayPath).depth + 1))) ∧
    (∀ i, i < ps.length →
      1 ≤ (splitSep '/' ((computeDisplayPaths ps 5).getD i [])).length ∧
      (splitSep '/' ((computeDisplayPaths ps 5).getD i [])).length ≤ 5) := by
  refine ⟨?_, ?_, ?_⟩
  · rw [show computeDisplayPaths ps 5 = (loopGo 4 (initialDisplayPaths ps)).map
      (fun x => joinSep x.separator ((x.pathParts.take x.depth).reverse)) from rfl]
    rw [loopGo_eq_roundIter]
  · intro r i hi
    rw [roundIter_init ps r, roundIter_init ps (r + 1), stateAt_getD ps r i hi,
      stateAt_getD ps (r + 1) i hi]
    by_cases hd : dstar ps i ≤ r
    · rw [if_pos hd, if_pos (show dstar ps i ≤ r + 1 by omega)]
      exact ⟨fun _ => rfl, fun hfalse => absurd hfalse (by simp)⟩
    · rw [if_neg hd]
      refine ⟨fun htrue => absurd htrue (by simp), fun _ => ⟨rfl, ?_, ?_, ?_⟩⟩
      · -- finality condition: counted once under a clean key, or full path
        have hkey : keyOf (⟨'/', revParts ps i, r + 1, false⟩ : DisplayPath) =
            joinSep '/' ((revParts ps i).take (r + 1)) := rfl
        have hseen : seenCountOf ((stateAt ps r).filter (fun q => !q.done))
            (keyOf (⟨'/', revParts ps i, r + 1, false⟩ : DisplayPath)) =
              fullCount ps i (r + 1) :=
          seenCount_stateAt ps r i hi (by omega)
        rw [hseen, hkey]
        by_cases hd2 : dstar ps i ≤ r + 1
        · rw [if_pos hd2]
          have hds : dstar ps i = r + 1 := by omega
          have hgood : goodB ps i (r + 1) = true := hds ▸ goodB_dstar ps i
          unfold goodB uniqB protoFreeB at hgood
          rw [Bool.or_eq_true, Bool.and_eq_true, Bool.not_eq_true',
            beq_iff_eq, beq_iff_eq] at hgood
          constructor
          · intro _
            rcases hgood with h1 | h1
            · exact Or.inl h1
            · exact Or.inr h1
          · intro _; rfl
        · rw [if_neg hd2]
          constructor
          · intro hfalse; exact absurd hfalse (by simp)
          · intro hcond
            exfalso
            apply hd2
            apply dstar_le_of_good ps i (r + 1) (by omega)
            unfold goodB uniqB protoFreeB
            rw [Bool.or_eq_true, Bool.and_eq_true, Bool.not_eq_true',
              beq_iff_eq, beq_iff_eq]
            rcases hcond with h1 | h1
            · exact Or.inl h1
            · exact Or.inr h1
      · by_cases hd2 : dstar ps i ≤ r + 1
        · rw [if_pos hd2]
          intro _
          have : dstar ps i = r + 1 := by omega
          rw [this]
        · rw [if_neg hd2]
          intro hfalse; exact absurd hfalse (by simp)
      · by_cases hd2 : dstar ps i ≤ r + 1
        · rw [if_pos hd2]
          intro htrue; exact absurd htrue (by simp)
        · rw [if_neg hd2]
          intro _; rfl
  · intro i hi
    rw [computeDisplayPaths_getD ps 5 i hi]
    have hD1 : 1 ≤ min (dstar ps i) (max 5 1) := by
      have := dstar_pos ps i
      omega
    have hsplit : splitSep '/' (joinSep '/'
        (((revParts ps i).take (min (dstar ps i) (max 5 1))).reverse)) =
          ((revParts ps i).take (min (dstar ps i) (max 5 1))).reverse := by
      apply splitSep_joinSep
      · simp only [ne_eq, List.reverse_eq_nil_iff]
        exact take_revParts_ne_nil ps i _ hD1
      · intro t ht
        rw [List.mem_reverse] at ht
        exact sepFree_take_revParts ps i _ t ht
    rw [hsplit, List.length_reverse, List.length_take]
    have := lenAt_pos ps i
    unfold lenAt at this
    omega

/-- Counterexample to claim C2 as stated: in the first round on the
single path `/a/constructor`, the depth-1 suffix `constructor` is counted
exactly once among the still-ambiguous records of equal depth and the
whole path is not yet used, yet the round does not mark the record final —
the plain-object `seenCount` inherits `Object.prototype.constructor`, so
its `=== 1` test fails and the suffix is extended instead. -/
theorem c2_counterexample :
    seenCountOf ((initialDisplayPaths [['/', 'a', '/', 'c', 'o', 'n', 's',
          't', 'r', 'u', 'c', 't', 'o', 'r']]).filter (fun q => !q.done))
      (keyOf ((initialDisplayPaths [['/', 'a', '/', 'c', 'o', 'n', 's',
          't', 'r', 'u', 'c', 't', 'o', 'r']]).getD 0 dummyDisplayPath)) = 1 ∧
    ((initialDisplayPaths [['/', 'a', '/', 'c', 'o', 'n', 's', 't', 'r',
        'u', 'c', 't', 'o', 'r']]).getD 0 dummyDisplayPath).done = false ∧
    ((initialDisplayPaths [['/', 'a', '/', 'c', 'o', 'n', 's', 't', 'r',
        'u', 'c', 't', 'o', 'r']]).getD 0 dummyDisplayPath).depth ≠
      ((initialDisplayPaths [['/', 'a', '/', 'c', 'o', 'n', 's', 't', 'r',
        'u', 'c', 't', 'o', 'r']]).getD 0 dummyDisplayPath).pathParts.length ∧
    ((roundStep (initialDisplayPaths [['/', 'a', '/', 'c', 'o', 'n', 's',
        't', 'r', 'u', 'c', 't', 'o', 'r']])).getD 0 dummyDisplayPath).done =
      false := by
  decide

/-- Witness for C2's segment-count bound at a two-path input. -/
theorem c2_witness :
    1 ≤ (splitSep '/' ((computeDisplayPaths [['/', 'a', '/', 'b'], ['/', 'c', '/', 'b']]
        5).getD 0 [])).length ∧
      (splitSep '/' ((computeDisplayPaths [['/', 'a', '/', 'b'], ['/', 'c', '/', 'b']]
        5).getD 0 [])).length ≤ 5 :=
  (c2_computeDisplayPaths_rounds_amended
    [['/', 'a', '/', 'b'], ['/', 'c', '/', 'b']]).2.2 0 (by decide)

/-! ### Merge-conflict classification (claim C3) -/

/-- Claim C3: `fetchMergeConflicts` classifies each parsed conflict record
by its existence flags — a conflict whose base, local and other sides all
exist is `BOTH_CHANGED`, and one whose local side does not exist is
`DELETED_IN_OURS`; on the `mockOutput` fixture this yields exactly the two
statuses the test expects. -/
theorem c3_fetchMergeConflicts_classification :
    (∀ c : MergeConflictRecord,
      (c.base.fileExists = true → c.localSide.fileExists = true →
        c.otherSide.fileExists = true →
        mergeConflictStatusOf c = MergeConflictStatus.BOTH_CHANGED) ∧
      (c.localSide.fileExists = false →
        mergeConflictStatusOf c = MergeConflictStatus.DELETED_IN_OURS)) ∧
    fetchMergeConflictsStatuses mockOutputConflicts =
      [MergeConflictStatus.BOTH_CHANGED, MergeConflictStatus.DELETED_IN_OURS] := by
  constructor
  · intro c
    constructor
    · intro _ h1 h2
      simp [mergeConflictStatusOf, h1, h2]
    · intro h
      simp [mergeConflictStatusOf, h]
  · rfl

/-- Witness for C3 at the first mock conflict record. -/
theorem c3_witness :
    mergeConflictStatusOf mockConflict1 = MergeConflictStatus.BOTH_CHANGED :=
  (c3_fetchMergeConflicts_classification.1 mockConflict1).1 rfl rfl rfl

/-! ### Remote reconnection flow (claim C4) -/

/-- Claim C4: `createRemoteConnection` first attempts
`RemoteConnection.reconnect` with the saved host and path; a non-null
reconnection is returned as is (no dialog); a null reconnection returns
null without opening any dialog when `promptReconnectOnFailure` is false,
and otherwise returns the result of the connection dialog preset to the
saved host and path. -/
theorem c4_createRemoteConnection_reconnect_or_prompt {Conn : Type}
    (reconnect : JsStr → JsStr → JsStr → Bool → Option Conn)
    (dialog : OpenConnectionDialogOptions → Option Conn)
    (cfg : SerializableRemoteConnectionConfiguration) :
    (∀ c, reconnect cfg.host cfg.path cfg.displayTitle
        (cfg.promptReconnectOnFailure.getD true) = some c →
      createRemoteConnection reconnect dialog cfg = (some c, [])) ∧
    (reconnect cfg.host cfg.path cfg.displayTitle
        (cfg.promptReconnectOnFailure.getD true) = none →
      cfg.promptReconnectOnFailure.getD true = false →
      createRemoteConnection reconnect dialog cfg = (none, [])) ∧
    (reconnect cfg.host cfg.path cfg.displayTitle
        (cfg.promptReconnectOnFailure.getD true) = none →
      cfg.promptReconnectOnFailure.getD true = true →
      createRemoteConnection reconnect dialog cfg =
        (dialog { initialServer := cfg.host, initialCwd := cfg.path },
          [{ initialServer := cfg.host, initialCwd := cfg.path }])) := by
  refine ⟨?_, ?_, ?_⟩
  · intro c h
    simp [createRemoteConnection, h]
  · intro h hp
    rw [hp] at h
    simp [createRemoteConnection, h, hp]
  · intro h hp
    rw [hp] at h
    simp [createRemoteConnection, h, hp]

/-- Witness for C4: a config that forbids prompting yields null and no
dialog when reconnection fails. -/
theorem c4_witness :
    createRemoteConnection (fun _ _ _ _ => (none : Option Unit)) (fun _ => none)
      { host := [], path := [], displayTitle := [],
        promptReconnectOnFailure := some false } = (none, []) :=
  (c4_createRemoteConnection_reconnect_or_prompt (fun _ _ _ _ => none)
    (fun _ => none) _).2.1 rfl rfl

/-! ### `getConfigValueAsync` error handling (claim C6) -/

/-- Claim C6: `getConfigValueAsync` returns null when the underlying hg
invocation throws, rather than propagating the exception; when it
succeeds, the trimmed stdout is returned. -/
theorem c6_getConfigValueAsync_null_on_error :
    (∀ (key err : JsStr) (runHg : List JsStr → Except JsStr JsStr),
      runHg (hgConfigArgs key) = Except.error err →
      getConfigValueAsync runHg key = none) ∧
    (∀ (key out : JsStr) (runHg : List JsStr → Except JsStr JsStr),
      runHg (hgConfigArgs key) = Except.ok out →
      getConfigValueAsync runHg key = some (trimStr out)) := by
  constructor <;>
    · intro key e runHg h
      unfold getConfigValueAsync
      rw [h]

/-- Witness for C6: a throwing hg runner yields null. -/
theorem c6_witness :
    getConfigValueAsync (fun _ => Except.error []) [] = none :=
  c6_getConfigValueAsync_null_on_error.1 [] [] (fun _ => Except.error []) rfl

/-! ### `ChangedFilesList.render` emptiness (claim C10) -/

/-- Claim C10: `render` returns null exactly when the `fileStatuses` map
is empty and `hideEmptyFolders` holds; with `hideEmptyFolders` false an
empty map still renders the list container. -/
theorem c10_render_null_iff {σ : Type} (props : ChangedFilesListProps σ)
    (state : ChangedFilesListState) :
    ChangedFilesList_render props state = none ↔
      props.fileStatuses = [] ∧ props.hideEmptyFolders = true := by
  unfold ChangedFilesList_render
  by_cases h : props.fileStatuses.length = 0 ∧ props.hideEmptyFolders = true
  · rw [if_pos h]
    simp only [true_iff]
    exact ⟨List.length_eq_zero.mp h.1, h.2⟩
  · rw [if_neg h]
    constructor
    · intro hcon
      exact absurd hcon (by simp)
    · intro hcon
      exact (h ⟨by rw [hcon.1]; rfl, hcon.2⟩).elim

/-! ### Busy messages follow the most recent status update (claim C7) -/

theorem foldl_busy_eq_find (root : JsStr) (updates : List ServerStatusUpdate)
    (acc : Option JsStr) :
    updates.foldl (fun currentMessage nextStatus =>
        if nextStatus.pathToRoot == root then busyMessageOf nextStatus
        else currentMessage) acc =
      match updates.reverse.find? (fun u => u.pathToRoot == root) with
      | some u => busyMessageOf u
      | none => acc := by
  induction updates generalizing acc with
  | nil => rfl
  | cons u rest ih =>
    rw [List.foldl_cons, ih]
    rw [List.reverse_cons, List.find?_append]
    cases hfind : rest.reverse.find? (fun v => v.pathToRoot == root) with
    | some v => rfl
    | none =>
      by_cases hu : u.pathToRoot == root
      · simp [List.find?, hu]
      · simp [List.find?, hu]

/-- Claim C7: under the embedded stream semantics, the busy message active
for a project root is determined by that root's most recent status update:
`Flow server is initializing (path)` after an `init` update, `Flow server
is busy (path)` after a `busy` update, and no message after any other
update or when the root never appeared. -/
theorem c7_serverStatus_busy_messages (updates : List ServerStatusUpdate)
    (root : JsStr) :
    (updates.reverse.find? (fun u => u.pathToRoot == root) = none →
      serverStatusUpdatesToBusyMessages updates root = none) ∧
    (∀ u, updates.reverse.find? (fun v => v.pathToRoot == root) = some u →
      serverStatusUpdatesToBusyMessages updates root =
        (if u.status = ServerStatusType.init then
          some (['F', 'l', 'o', 'w', ' ', 's', 'e', 'r', 'v', 'e', 'r', ' ',
              'i', 's', ' '] ++
            ['i', 'n', 'i', 't', 'i', 'a', 'l', 'i', 'z', 'i', 'n', 'g'] ++
            [' ', '('] ++ u.pathToRoot ++ [')'])
        else if u.status = ServerStatusType.busy then
          some (['F', 'l', 'o', 'w', ' ', 's', 'e', 'r', 'v', 'e', 'r', ' ',
              'i', 's', ' '] ++
            ['b', 'u', 's', 'y'] ++ [' ', '('] ++ u.pathToRoot ++ [')'])
        else none)) := by
  constructor
  · intro h
    unfold serverStatusUpdatesToBusyMessages
    rw [foldl_busy_eq_find root updates none, h]
  · intro u h
    unfold serverStatusUpdatesToBusyMessages
    rw [foldl_busy_eq_find root updates none, h]
    unfold busyMessageOf nuclideUriToDisplayString
    by_cases h1 : u.status = ServerStatusType.init
    · simp [h1]
    · by_cases h2 : u.status = ServerStatusType.busy
      · simp [h1, h2]
      · simp [h1, h2]

/-- Witness for C7: one `init` update leaves the initializing message
active for its root. -/
theorem c7_witness :
    serverStatusUpdatesToBusyMessages
      [{ pathToRoot := ['r'], status := ServerStatusType.init }] ['r'] =
      some (['F', 'l', 'o', 'w', ' ', 's', 'e', 'r', 'v', 'e', 'r', ' ',
          'i', 's', ' '] ++
        ['i', 'n', 'i', 't', 'i', 'a', 'l', 'i', 'z', 'i', 'n', 'g'] ++
        [' ', '('] ++ ['r'] ++ [')']) := by
  rw [(c7_serverStatus_busy_messages
    [{ pathToRoot := ['r'], status := ServerStatusType.init }] ['r']).2
    { pathToRoot := ['r'], status := ServerStatusType.init } (by decide)]
  decide

/-! ### `ChangedFilesList.render` pagination (claim C5) -/

theorem insertSorted_perm {α : Type} (le : α → α → Bool) (a : α) (l : List α) :
    (insertSorted le a l).Perm (a :: l) := by
  induction l with
  | nil => exact List.Perm.refl _
  | cons b bs ih =>
    unfold insertSorted
    by_cases h : le a b
    · rw [if_pos h]
    · rw [if_neg h]
      exact (ih.cons b).trans (List.Perm.swap a b bs)

theorem sortByLe_perm {α : Type} (le : α → α → Bool) (l : List α) :
    (sortByLe le l).Perm l := by
  induction l with
  | nil => exact List.Perm.refl _
  | cons a as ih =>
    unfold sortByLe
    exact (insertSorted_perm le a (sortByLe le as)).trans (ih.cons a)

theorem map_zipWith_fst {α β γ : Type} (f : α → β → γ) (g : γ → α)
    (hfg : ∀ a b, g (f a b) = a) (as : List α) (bs : List β)
    (h : as.length ≤ bs.length) : (List.zipWith f as bs).map g = as := by
  induction as generalizing bs with
  | nil => simp
  | cons a as' ih =>
    cases bs with
    | nil => simp at h
    | cons b bs' =>
      simp only [List.zipWith_cons_cons, List.map_cons, hfg]
      rw [ih bs' (by simpa using h)]

/-- Claim C5: a non-null `render` shows at most
`FILE_CHANGES_INITIAL_PAGE_SIZE * visiblePagesCount` files, namely exactly
the first entries of the `fileStatuses` map in key order (reordered only
by the basename sort), renders the `show more files` control exactly when
the map holds more entries than that, and the control's activation
increments `visiblePagesCount` by one. -/
theorem c5_render_pagination {σ : Type} (props : ChangedFilesListProps σ)
    (state : ChangedFilesListState) (r : RenderedChangedFilesList σ)
    (h : ChangedFilesList_render props state = some r) :
    r.fileChanges.length ≤ FILE_CHANGES_INITIAL_PAGE_SIZE * state.visiblePagesCount ∧
    (r.fileChanges.map FileChangeEntry.filePath).Perm
      ((props.fileStatuses.map Prod.fst).take
        (FILE_CHANGES_INITIAL_PAGE_SIZE * state.visiblePagesCount)) ∧
    (r.showMoreFiles = true ↔
      FILE_CHANGES_INITIAL_PAGE_SIZE * state.visiblePagesCount <
        props.fileStatuses.length) ∧
    (∀ s : ChangedFilesListState, showMoreOnClick s =
      { s with visiblePagesCount := s.visiblePagesCount + 1 }) := by
  obtain ⟨rc, sf, fc, sm⟩ := r
  unfold ChangedFilesList_render at h
  by_cases hc : props.fileStatuses.length = 0 ∧ props.hideEmptyFolders = true
  · rw [if_pos hc] at h
    exact absurd h (by simp)
  · rw [if_neg hc] at h
    dsimp only at h ⊢
    injection h with h
    injection h with h1 h2 h3 h4
    subst h1 h2 h3 h4
    refine ⟨?_, ?_, ?_, fun s => rfl⟩
    · rw [(sortByLe_perm _ _).length_eq, List.length_zipWith,
        computeDisplayPaths_length, List.length_take]
      omega
    · have hmap := map_zipWith_fst
        (fun filePath displayPath =>
          { filePath := filePath, displayPath := displayPath,
            fileStatus := List.lookup filePath props.fileStatuses
            : FileChangeEntry σ })
        FileChangeEntry.filePath (fun a b => rfl)
        ((props.fileStatuses.map Prod.fst).take
          (FILE_CHANGES_INITIAL_PAGE_SIZE * state.visiblePagesCount))
        (computeDisplayPaths
          ((props.fileStatuses.map Prod.fst).take
            (FILE_CHANGES_INITIAL_PAGE_SIZE * state.visiblePagesCount)))
        (by rw [computeDisplayPaths_length])
      have hperm := (sortByLe_perm
        (fun change1 change2 => lexLe (basename change1.filePath)
          (basename change2.filePath))
        (List.zipWith (fun filePath displayPath =>
            { filePath := filePath, displayPath := displayPath,
              fileStatus := List.lookup filePath props.fileStatuses
              : FileChangeEntry σ })
          ((props.fileStatuses.map Prod.fst).take
            (FILE_CHANGES_INITIAL_PAGE_SIZE * state.visiblePagesCount))
          (computeDisplayPaths
            ((props.fileStatuses.map Prod.fst).take
              (FILE_CHANGES_INITIAL_PAGE_SIZE * state.visiblePagesCount))))).map
        FileChangeEntry.filePath
      rw [hmap] at hperm
      exact hperm
    · exact decide_eq_true_iff

/-- Witness for C5 at an empty file-status map with
`hideEmptyFolders = false`. -/
theorem c5_witness :
    (0 : Nat) ≤ FILE_CHANGES_INITIAL_PAGE_SIZE * 1 ∧
    ([] : List JsStr).Perm [] ∧
    ((false = true) ↔ FILE_CHANGES_INITIAL_PAGE_SIZE * 1 < 0) ∧
    (∀ s : ChangedFilesListState, showMoreOnClick s =
      { s with visiblePagesCount := s.visiblePagesCount + 1 }) :=
  c5_render_pagination (σ := Nat)
    { fileStatuses := [], hideEmptyFolders := false, rootPath := [],
      shouldShowFolderName := false }
    { isCollapsed := false, visiblePagesCount := 1 }
    { rootClassCollapsed := false, showFolderName := false, fileChanges := [],
      showMoreFiles := false }
    rfl

end Nuclide
